import Mathlib

/-!
Verification of the spatial-effects repository: a shallow embedding of the
rotation-math utility (`spatial_effects/axis_angle.py`) and of the frame-graph
engine (`Transform`, `FrameTree`, `FrameForest`) exercised by
`spatial_effects/tests/test_transforms.py`.

Machine floats are modelled by exact rationals.  Because Euclidean norms of
rational vectors are irrational in general, functions of the source code that
call `np.linalg.norm` take the norm as an explicit function argument `nrm`;
theorems constrain `nrm` pointwise (`0 ≤ nrm v` and `(nrm v)^2 = ⟨v,v⟩`) at the
vectors where the code uses it.  The constant `math.pi` is likewise passed as a
positive rational parameter `piQ`.  Non-finite floats (NaN/Inf) are modelled by
`none` in an `Option ℚ` scalar type with propagating arithmetic.
-/

namespace SpatialEffects

/-- Decidable equality on `Except`, needed to evaluate the models' results. -/
instance {ε α : Type} [DecidableEq ε] [DecidableEq α] : DecidableEq (Except ε α) := fun a b =>
  match a, b with
  | .ok x, .ok y =>
    if h : x = y then isTrue (by rw [h]) else isFalse (fun hc => h (Except.ok.inj hc))
  | .error x, .error y =>
    if h : x = y then isTrue (by rw [h]) else isFalse (fun hc => h (Except.error.inj hc))
  | .ok _, .error _ => isFalse (fun hc => Except.noConfusion hc)
  | .error _, .ok _ => isFalse (fun hc => Except.noConfusion hc)

/-- Machine epsilon `np.finfo(float).eps = 2^-52`. -/
def epsQ : ℚ := 1 / 4503599627370496

/-- Absolute tolerance of `np.isclose(x, 0.0)`, `1e-8`. -/
def atolQ : ℚ := 1 / 100000000

/-- Rational 3-vector, modelling a numpy array of shape `(3,)`. -/
structure V3 where
  x : ℚ
  y : ℚ
  z : ℚ
deriving DecidableEq

attribute [ext] V3

/-- Componentwise negation `-r`. -/
def negV (v : V3) : V3 := ⟨-v.x, -v.y, -v.z⟩

/-- Euclidean dot product of two 3-vectors. -/
def dotV (a b : V3) : ℚ := a.x * b.x + a.y * b.y + a.z * b.z

/-- Scalar multiple of a 3-vector. -/
def scaleV (c : ℚ) (v : V3) : V3 := ⟨c * v.x, c * v.y, c * v.z⟩

/-- Hemisphere fold of `rrand` before the resampling loop: rows with a negative
third component have that component negated (`vecs[south, 2] = -vecs[south, 2]`). -/
def flipNorth (v : V3) : V3 := if v.z < 0 then ⟨v.x, v.y, -v.z⟩ else v

/-- Near-zero test `np.isclose(norm, 0.0)`, i.e. `|norm| ≤ 1e-8`. -/
def isShort (nrm : V3 → ℚ) (v : V3) : Bool := |nrm v| ≤ atolQ

/-- While-loop of `rrand`: keep drawing from the Gaussian `stream` while the
current draw is near zero.  `fuel` bounds the number of iterations; under the
hypothesis that the stream eventually produces a draw of usable length the
result does not depend on the fuel.  Note that, as in the source, the resampled
draws are NOT folded to the north hemisphere. -/
def resampleLoop (nrm : V3 → ℚ) (stream : Nat → V3) : Nat → V3
  | 0 => stream 0
  | fuel + 1 =>
    if isShort nrm (stream 0) then resampleLoop nrm (fun k => stream (k + 1)) fuel
    else stream 0

/-- One row of `rrand` (`axis_angle.py:85-118`): hemisphere-fold the initial
Gaussian draw `v0`, resample from `stream` while near zero, then normalize and
scale by `pi` times the uniform draw `u`. -/
def rrand1 (piQ u : ℚ) (nrm : V3 → ℚ) (v0 : V3) (stream : Nat → V3) (fuel : Nat) : V3 :=
  let w := flipNorth v0
  let v := if isShort nrm w then resampleLoop nrm stream fuel else w
  scaleV (piQ * u / nrm v) v

/-- Per-row random inputs of `rrand`: the uniform draw in `[0,1)`, the initial
Gaussian draw, the resampling stream and the iteration bound. -/
structure RandDraw where
  u : ℚ
  first : V3
  stream : Nat → V3
  fuel : Nat

/-- Vectorized `rrand`: the numpy code processes the `n` rows independently. -/
def rrand (piQ : ℚ) (nrm : V3 → ℚ) (inputs : List RandDraw) : List V3 :=
  inputs.map (fun d => rrand1 piQ d.u nrm d.first d.stream d.fuel)

/-- Model of `keep_north` (`axis_angle.py:61-82`): when the angle is within
machine epsilon of `pi`, flip the sign of the Rodrigues vector under the
component conditions of the source. -/
def keep_north (piQ : ℚ) (nrm : V3 → ℚ) (r : V3) : V3 :=
  if |nrm r - piQ| < epsQ then
    if r.x < 0 then negV r
    else if |r.x| < epsQ ∧ r.y < 0 then negV r
    else if |r.x| < epsQ ∧ |r.y| < epsQ ∧ r.z < 0 then negV r
    else r
  else r

/-- Floating-point scalar: `some q` is a finite value, `none` a non-finite one
(NaN or an infinity). -/
abbrev QN := Option ℚ

/-- Addition with non-finite propagation. -/
def addN : QN → QN → QN
  | some a, some b => some (a + b)
  | _, _ => none

/-- Subtraction with non-finite propagation. -/
def subN : QN → QN → QN
  | some a, some b => some (a - b)
  | _, _ => none

/-- Multiplication with non-finite propagation (IEEE `0 * NaN = NaN`). -/
def mulN : QN → QN → QN
  | some a, some b => some (a * b)
  | _, _ => none

/-- Division: dividing by zero yields a non-finite value (`0/0 = NaN`,
`x/0 = ±Inf`), modelled uniformly by `none`. -/
def divN : QN → QN → QN
  | some a, some b => if b = 0 then none else some (a / b)
  | _, _ => none

/-- Float 3-vector with possibly non-finite components. -/
structure VN where
  x : QN
  y : QN
  z : QN
deriving DecidableEq

/-- Cross product `np.cross(a, b)` on float 3-vectors. -/
def crossN (a b : VN) : VN :=
  ⟨subN (mulN a.y b.z) (mulN a.z b.y),
   subN (mulN a.z b.x) (mulN a.x b.z),
   subN (mulN a.x b.y) (mulN a.y b.x)⟩

/-- Dot product on float 3-vectors. -/
def dotN (a b : VN) : QN := addN (addN (mulN a.x b.x) (mulN a.y b.y)) (mulN a.z b.z)

/-- Scalar multiple on float 3-vectors. -/
def smulN (c : QN) (v : VN) : VN := ⟨mulN c v.x, mulN c v.y, mulN c v.z⟩

/-- Componentwise addition on float 3-vectors. -/
def addVN (a b : VN) : VN := ⟨addN a.x b.x, addN a.y b.y, addN a.z b.z⟩

/-- Python exception raised by `rotate_axis_angle`. -/
inductive PyError where
  | valueError : PyError
deriving DecidableEq

/-- Model of `rotate_axis_angle` (`axis_angle.py:14-58`) on a single 3-vector
`v` (the `(N,3)` batch applies the same formula rowwise; `reshape_nx3` lives in
`common.py`, outside the visible source).  The rotation vector `r` is a raw
number list so that the `r.size != 3` check is observable; `cosF`/`sinF` model
`np.cos`/`np.sin` and `nrm` models `np.linalg.norm`. -/
def rotate_axis_angle (cosF sinF : QN → QN) (nrm : List QN → QN) (v : VN) (r : List QN) :
    Except PyError VN :=
  if r.length ≠ 3 then .error .valueError
  else
    match r with
    | [r1, r2, r3] =>
      let theta := nrm [r1, r2, r3]
      let rhat : VN := ⟨divN r1 theta, divN r2 theta, divN r3 theta⟩
      let c := cosF theta
      let s := sinF theta
      .ok (addVN (addVN (smulN c v) (smulN s (crossN rhat v)))
            (smulN (mulN (subN (some 1) c) (dotN v rhat)) rhat))
    | _ => .error .valueError

/-- Rational 3×3 matrix, the rotation component of a rigid transform. -/
structure M3 where
  a11 : ℚ
  a12 : ℚ
  a13 : ℚ
  a21 : ℚ
  a22 : ℚ
  a23 : ℚ
  a31 : ℚ
  a32 : ℚ
  a33 : ℚ
deriving DecidableEq

attribute [ext] M3

/-- Identity matrix. -/
def M3.one : M3 := ⟨1, 0, 0, 0, 1, 0, 0, 0, 1⟩

/-- Matrix product. -/
def M3.mul (A B : M3) : M3 :=
  ⟨A.a11 * B.a11 + A.a12 * B.a21 + A.a13 * B.a31,
   A.a11 * B.a12 + A.a12 * B.a22 + A.a13 * B.a32,
   A.a11 * B.a13 + A.a12 * B.a23 + A.a13 * B.a33,
   A.a21 * B.a11 + A.a22 * B.a21 + A.a23 * B.a31,
   A.a21 * B.a12 + A.a22 * B.a22 + A.a23 * B.a32,
   A.a21 * B.a13 + A.a22 * B.a23 + A.a23 * B.a33,
   A.a31 * B.a11 + A.a32 * B.a21 + A.a33 * B.a31,
   A.a31 * B.a12 + A.a32 * B.a22 + A.a33 * B.a32,
   A.a31 * B.a13 + A.a32 * B.a23 + A.a33 * B.a33⟩

/-- Matrix transpose. -/
def M3.transpose (A : M3) : M3 :=
  ⟨A.a11, A.a21, A.a31, A.a12, A.a22, A.a32, A.a13, A.a23, A.a33⟩

/-- Matrix-vector product. -/
def M3.mulV (A : M3) (v : V3) : V3 :=
  ⟨A.a11 * v.x + A.a12 * v.y + A.a13 * v.z,
   A.a21 * v.x + A.a22 * v.y + A.a23 * v.z,
   A.a31 * v.x + A.a32 * v.y + A.a33 * v.z⟩

/-- Vector addition. -/
def V3.add (a b : V3) : V3 := ⟨a.x + b.x, a.y + b.y, a.z + b.z⟩

/-- Zero vector. -/
def V3.zero : V3 := ⟨0, 0, 0⟩

/-- Modelled from the spec: the `SE3` rigid-transform primitive (spec §3, §4.1)
is absent from the visible source (only `spatial_effects.SE3` imports appear in
the tests), so it is reconstructed here as a rotation matrix plus a
translation vector with exact rational entries. -/
structure SE3 where
  R : M3
  t : V3
deriving DecidableEq

attribute [ext] SE3

/-- Identity rigid transform: zero rotation, zero translation. -/
def SE3.one : SE3 := ⟨M3.one, V3.zero⟩

/-- Composition `comp a b`: apply `b` first, then `a` (spec §4.1). -/
def SE3.comp (a b : SE3) : SE3 := ⟨a.R.mul b.R, (a.R.mulV b.t).add a.t⟩

/-- Inverse of a rigid transform, using the transpose of the rotation. -/
def SE3.inv (a : SE3) : SE3 :=
  ⟨a.R.transpose, ⟨-(a.R.transpose.mulV a.t).x, -(a.R.transpose.mulV a.t).y,
    -(a.R.transpose.mulV a.t).z⟩⟩

/-- A transform is rigid when its rotation matrix is orthonormal (spec §3:
the rotation component always represents a valid rotation). -/
def IsRigid (a : SE3) : Prop :=
  a.R.mul a.R.transpose = M3.one ∧ a.R.transpose.mul a.R = M3.one

instance (a : SE3) : Decidable (IsRigid a) := by
  unfold IsRigid
  infer_instance

/-- Modelled from the spec: the `Transform` edge abstraction (spec §2, §3) —
a rigid transform from a named child frame to a named parent frame.  The class
itself is absent from the visible source. -/
structure Transform where
  se3 : SE3
  child : String
  parent : String
deriving DecidableEq

/-- Incoming edge of frame `f`: the stored edge whose child is `f`
(spec §9: the tree is a mapping from child identifier to (parent, transform)). -/
def findEdge (es : List Transform) (f : String) : Option Transform :=
  es.find? (fun e => e.child == f)

/-- Membership of a frame name: `f` appears as a child or a parent of an edge. -/
def knownB (es : List Transform) (f : String) : Bool :=
  es.any (fun e => e.child == f || e.parent == f)

/-- Ancestor chain of a frame: the frame itself, then its parent, and so on,
until a frame with no incoming edge is reached or the fuel runs out. -/
def chain (es : List Transform) : Nat → String → List String
  | 0, f => [f]
  | n + 1, f =>
    match findEdge es f with
    | none => [f]
    | some e => f :: chain es n e.parent

/-- Accumulated transform from frame `f` to the top of its ancestor chain. -/
def upRoot (es : List Transform) : Nat → String → SE3
  | 0, _ => SE3.one
  | n + 1, f =>
    match findEdge es f with
    | none => SE3.one
    | some e => SE3.comp (upRoot es n e.parent) e.se3

/-- Accumulated transform from frame `f` up to ancestor `l` (stops at the first
occurrence of `l` on the chain). -/
def upTo (es : List Transform) : Nat → String → String → SE3
  | 0, _, _ => SE3.one
  | n + 1, f, l =>
    if f == l then SE3.one
    else
      match findEdge es f with
      | none => SE3.one
      | some e => SE3.comp (upTo es n e.parent l) e.se3

/-- Fuel bound sufficient for any terminating chain in `es`. -/
def fuelOf (es : List Transform) : Nat := es.length + 1

/-- Root discovery (spec §3): the parent of the first edge whose parent name
never appears as a child. -/
def rootOf (es : List Transform) : Option String :=
  (es.find? (fun e => es.all (fun x => x.child != e.parent))).map (·.parent)

/-- Modelled from the spec: the `FrameTree` structure (spec §4.2) is absent
from the visible source; it owns an ordered frame-to-edge list. -/
structure FrameTree where
  edges : List Transform
deriving DecidableEq

/-- Root frame of a tree (empty-string default for degenerate inputs). -/
def treeRoot (T : FrameTree) : String := (rootOf T.edges).getD ""

/-- Tree invariants (spec §3, §4.2): a discoverable root, at least one edge,
no frame with two parent edges, and every edge's child chain terminating at
the root (which rules out cycles and disconnection). -/
def validTreeB (T : FrameTree) : Bool :=
  match rootOf T.edges with
  | none => false
  | some r =>
    !T.edges.isEmpty &&
    decide ((T.edges.map (fun e => e.child)).Nodup) &&
    T.edges.all (fun e => (chain T.edges (fuelOf T.edges) e.child).getLast? == some r)

/-- Lookup failures of `get_transform` (spec §7, `LookupError`). -/
inductive LookupErr where
  | unknownFrame : LookupErr
  | noPath : LookupErr
deriving DecidableEq

/-- Graph-invariant failures of `update`/`construct` (spec §7, `GraphError`). -/
inductive GraphErr where
  | orphanEdge : GraphErr
  | cycle : GraphErr
  | ambiguousParent : GraphErr
  | invalidGraph : GraphErr
deriving DecidableEq

/-- Modelled from the spec: `get_transform` on a tree (spec §4.2): membership
check, identity short-circuit, then the LCA algorithm — walk both chains, take
the deepest frame common to both, and combine the two accumulated transforms.
The returned transform maps points of frame `a` into frame `b`. -/
def getSE3Tree (T : FrameTree) (a b : String) : Except LookupErr SE3 :=
  if !(knownB T.edges a) || !(knownB T.edges b) then .error .unknownFrame
  else if a == b then .ok SE3.one
  else
    let n := fuelOf T.edges
    let ca := chain T.edges n a
    let cb := chain T.edges n b
    match ca.find? (fun f => cb.contains f) with
    | none => .error .noPath
    | some l => .ok (SE3.comp (SE3.inv (upTo T.edges n b l)) (upTo T.edges n a l))

/-- Modelled from the spec: incremental tree update (spec §4.2): in-place
replacement when the child/parent pair exists, re-parenting with a cycle
check when both frames exist, leaf/root extension when exactly one exists,
and an orphan error when neither exists. -/
def updateTree (T : FrameTree) (e : Transform) : Except GraphErr FrameTree :=
  let kc := knownB T.edges e.child
  let kp := knownB T.edges e.parent
  if kc && kp then
    match findEdge T.edges e.child with
    | some old =>
      if old.parent == e.parent then
        .ok ⟨T.edges.map (fun x => if x.child == e.child then e else x)⟩
      else if (chain T.edges (fuelOf T.edges) e.parent).contains e.child then
        .error .cycle
      else
        .ok ⟨T.edges.map (fun x => if x.child == e.child then e else x)⟩
    | none => .error .cycle
  else if kc then
    match findEdge T.edges e.child with
    | some _ => .error .ambiguousParent
    | none => .ok ⟨T.edges ++ [e]⟩
  else if kp then .ok ⟨T.edges ++ [e]⟩
  else .error .orphanEdge

/-- State seen by the caller after an update: the new tree on success, the
untouched previous tree on failure (spec §4.2: failed updates are atomic). -/
def applyUpdateTree (T : FrameTree) (e : Transform) : FrameTree :=
  match updateTree T e with
  | .ok T' => T'
  | .error _ => T

/-- Serialized edge record (spec §6): rotation, translation, child, parent. -/
structure EdgeRec where
  rotation : M3
  translation : V3
  child : String
  parent : String
deriving DecidableEq

/-- Serialization of one edge. -/
def Transform.toRec (e : Transform) : EdgeRec := ⟨e.se3.R, e.se3.t, e.child, e.parent⟩

/-- Deserialization of one edge record. -/
def EdgeRec.toTransform (r : EdgeRec) : Transform := ⟨⟨r.rotation, r.translation⟩, r.child, r.parent⟩

/-- Lexicographic comparison of character lists (computable replacement for
the byte-iterator order on `String`). -/
def charsLe : List Char → List Char → Bool
  | [], _ => true
  | _ :: _, [] => false
  | c :: cs, d :: ds => if c = d then charsLe cs ds else decide (c.toNat < d.toNat)

/-- Lexicographic order on strings. -/
def strLe (a b : String) : Bool := charsLe a.data b.data

/-- Serialization order on edges: by child name (spec §4.2: the order must be
stable and reproducible from the tree state, not the insertion order). -/
def edgeLE (e e' : Transform) : Prop := strLe e.child e'.child = true

instance : DecidableRel edgeLE := fun e e' => Bool.decEq (strLe e.child e'.child) true

instance : IsTotal Transform edgeLE := by
  constructor
  intro a b
  show strLe a.child b.child = true ∨ strLe b.child a.child = true
  unfold strLe
  generalize a.child.data = l
  generalize b.child.data = m
  induction l generalizing m with
  | nil => exact Or.inl rfl
  | cons c cs ih =>
    cases m with
    | nil => exact Or.inr rfl
    | cons d ds =>
      by_cases hcd : c = d
      · subst hcd
        simpa [charsLe] using ih ds
      · have hne : c.toNat ≠ d.toNat := fun h => hcd (Char.eq_of_val_eq (UInt32.ext h))
        rcases Nat.lt_or_ge c.toNat d.toNat with h | h
        · exact Or.inl (by simp [charsLe, hcd, h])
        · have hdc : d.toNat < c.toNat := lt_of_le_of_ne h (fun h' => hne h'.symm)
          exact Or.inr (by simp [charsLe, Ne.symm hcd, hdc])

instance : IsTrans Transform edgeLE := by
  constructor
  intro a b c
  show strLe a.child b.child = true → strLe b.child c.child = true →
    strLe a.child c.child = true
  unfold strLe
  generalize a.child.data = l
  generalize b.child.data = m
  generalize c.child.data = k
  induction l generalizing m k with
  | nil => intro _ _; rfl
  | cons x xs ih =>
    cases m with
    | nil => intro h; exact absurd h (by simp [charsLe])
    | cons y ys =>
      cases k with
      | nil => intro _ h; exact absurd h (by simp [charsLe])
      | cons z zs =>
        intro h1 h2
        by_cases hxy : x = y <;> by_cases hyz : y = z
        · subst hxy hyz
          simp only [charsLe, if_pos rfl] at h1 h2 ⊢
          exact ih ys zs h1 h2
        · subst hxy
          simpa [charsLe, hyz] using h2
        · subst hyz
          simpa [charsLe, hxy] using h1
        · simp only [charsLe, if_neg hxy, decide_eq_true_eq] at h1
          simp only [charsLe, if_neg hyz, decide_eq_true_eq] at h2
          have hxz : x.toNat < z.toNat := Nat.lt_trans h1 h2
          have hne : x ≠ z := by
            intro h
            subst h
            exact Nat.lt_irrefl _ (Nat.lt_trans h1 h2)
          simp [charsLe, hne, hxz]

/-- Edges in canonical serialization order. -/
def sortEdges (es : List Transform) : List Transform := es.insertionSort edgeLE

/-- Modelled from the spec: `to_serializable` of a tree (spec §4.2). -/
def toListTree (T : FrameTree) : List EdgeRec := (sortEdges T.edges).map Transform.toRec

/-- Modelled from the spec: tree construction from a batch of edges
(spec §4.2), failing with a graph error unless the invariants hold. -/
def constructTree (es : List Transform) : Except GraphErr FrameTree :=
  if validTreeB ⟨es⟩ then .ok ⟨es⟩ else .error .invalidGraph

/-- Modelled from the spec: `from_serializable` of a tree (spec §4.2). -/
def fromListTree (recs : List EdgeRec) : Except GraphErr FrameTree :=
  constructTree (recs.map EdgeRec.toTransform)

/-- Outgoing edges of a frame, in canonical order. -/
def childEdges (es : List Transform) (f : String) : List Transform :=
  es.filter (fun e => e.parent == f)

/-- Depth-first rendering lines of the subtree at `f`: one frame per line,
indentation showing nesting depth (spec §4.2, §6). -/
def renderAux (es : List Transform) : Nat → Nat → String → List String
  | 0, depth, f => [String.mk (List.replicate (2 * depth) ' ') ++ f]
  | n + 1, depth, f =>
    (String.mk (List.replicate (2 * depth) ' ') ++ f) ::
      ((childEdges es f).map (fun e => renderAux es n (depth + 1) e.child)).flatten

/-- Modelled from the spec: deterministic textual rendering of the subtree
rooted at `f` (spec §4.2). -/
def renderTree (T : FrameTree) (f : String) : String :=
  String.intercalate (String.mk [Char.ofNat 10]) (renderAux (sortEdges T.edges) (fuelOf T.edges) 0 f)

/-- Modelled from the spec: the `FrameForest` structure (spec §4.3) is absent
from the visible source; it owns a list of independent trees. -/
structure FrameForest where
  trees : List FrameTree
deriving DecidableEq

/-- Frame names of an edge list, with repetitions. -/
def framesOf : List Transform → List String
  | [] => []
  | e :: t => e.child :: e.parent :: framesOf t

/-- Disjointness of the frame-name universes of two trees (spec §3). -/
def disjointB (T1 T2 : FrameTree) : Bool :=
  (framesOf T1.edges).all (fun f => !(knownB T2.edges f))

/-- Pairwise disjointness of a list of trees. -/
def pairwiseDisjointB : List FrameTree → Bool
  | [] => true
  | T :: ts => ts.all (fun T' => disjointB T T') && pairwiseDisjointB ts

/-- Forest invariants (spec §3): valid trees with disjoint frame universes. -/
def validForestB (F : FrameForest) : Bool :=
  F.trees.all validTreeB && pairwiseDisjointB F.trees

/-- Membership routing (spec §4.3): the tree a frame name belongs to. -/
def treeFor (F : FrameForest) (f : String) : Option FrameTree :=
  F.trees.find? (fun T => knownB T.edges f)

/-- Modelled from the spec: `get_transform` on a forest (spec §4.3): lookup
error when a name is unknown or the two frames live in different trees,
otherwise delegation to the owning tree. -/
def getSE3Forest (F : FrameForest) (a b : String) : Except LookupErr SE3 :=
  match treeFor F a, treeFor F b with
  | some Ta, some Tb => if Ta = Tb then getSE3Tree Ta a b else .error .noPath
  | _, _ => .error .unknownFrame

/-- Modelled from the spec: incremental forest update (spec §4.3): in-tree
delegation, cross-tree splice, single-sided extension, and creation of a new
single-edge tree when both names are unknown (no orphan error). -/
def updateForest (F : FrameForest) (e : Transform) : Except GraphErr FrameForest :=
  match treeFor F e.child, treeFor F e.parent with
  | none, none => .ok ⟨F.trees ++ [⟨[e]⟩]⟩
  | some Ti, none =>
    match updateTree Ti e with
    | .ok T' => .ok ⟨F.trees.map (fun T => if T = Ti then T' else T)⟩
    | .error er => .error er
  | none, some Tj =>
    match updateTree Tj e with
    | .ok T' => .ok ⟨F.trees.map (fun T => if T = Tj then T' else T)⟩
    | .error er => .error er
  | some Ti, some Tj =>
    if Ti = Tj then
      match updateTree Ti e with
      | .ok T' => .ok ⟨F.trees.map (fun T => if T = Ti then T' else T)⟩
      | .error er => .error er
    else
      match findEdge Ti.edges e.child with
      | some _ => .error .ambiguousParent
      | none =>
        .ok ⟨(F.trees.filter (fun T => !(knownB T.edges e.child || knownB T.edges e.parent))) ++
          [⟨Tj.edges ++ Ti.edges ++ [e]⟩]⟩

/-- State seen by the caller after a forest update (atomic on failure). -/
def applyUpdateForest (F : FrameForest) (e : Transform) : FrameForest :=
  match updateForest F e with
  | .ok F' => F'
  | .error _ => F

/-- Serialization order on component trees: by root name (spec §4.3). -/
def treeLE (T T' : FrameTree) : Prop := strLe (treeRoot T) (treeRoot T') = true

instance : DecidableRel treeLE := fun T T' => Bool.decEq (strLe (treeRoot T) (treeRoot T')) true

instance : IsTotal FrameTree treeLE :=
  ⟨fun a b => @IsTotal.total Transform edgeLE _ ⟨SE3.one, treeRoot a, ""⟩ ⟨SE3.one, treeRoot b, ""⟩⟩

instance : IsTrans FrameTree treeLE :=
  ⟨fun a b c => @IsTrans.trans Transform edgeLE _ ⟨SE3.one, treeRoot a, ""⟩ ⟨SE3.one, treeRoot b, ""⟩
    ⟨SE3.one, treeRoot c, ""⟩⟩

/-- Component trees in canonical serialization order. -/
def sortTrees (ts : List FrameTree) : List FrameTree := ts.insertionSort treeLE

/-- Modelled from the spec: `to_serializable` of a forest (spec §4.3): the
union of all component trees' edge records in a deterministic order. -/
def toListForest (F : FrameForest) : List EdgeRec := ((sortTrees F.trees).map toListTree).flatten

/-- Root of the connected component an edge belongs to: the end of its child's
ancestor chain. -/
def componentRoot (es : List Transform) (e : Transform) : String :=
  ((chain es (fuelOf es) e.child).getLast?).getD e.child

/-- First-occurrence deduplication. -/
def dedupFirst (seen : List String) : List String → List String
  | [] => []
  | a :: t => if a ∈ seen then dedupFirst seen t else a :: dedupFirst (a :: seen) t

/-- Modelled from the spec: forest construction (spec §4.3): partition the
edges into maximal connected components (grouped by the root their parent
chains terminate at), each component becoming one tree, and validate each
component's tree invariants. -/
def constructForest (es : List Transform) : Except GraphErr FrameForest :=
  let roots := dedupFirst [] (es.map (componentRoot es))
  let ts := roots.map (fun r => (⟨es.filter (fun e => componentRoot es e == r)⟩ : FrameTree))
  if ts.all validTreeB && pairwiseDisjointB ts then .ok ⟨ts⟩ else .error .invalidGraph

/-- Modelled from the spec: `from_serializable` of a forest (spec §4.3). -/
def fromListForest (recs : List EdgeRec) : Except GraphErr FrameForest :=
  constructForest (recs.map EdgeRec.toTransform)

/-- Modelled from the spec: textual representation of a forest (spec §4.3):
each component tree rendered from its root, in deterministic order, separated
by a blank line. -/
def renderForest (F : FrameForest) : String :=
  String.intercalate (String.mk [Char.ofNat 10, Char.ofNat 10])
    ((sortTrees F.trees).map (fun T => renderTree T (treeRoot T)))

/-! Concrete fixtures used to evaluate the models on explicit inputs. -/

/-- Proper rational rotation about the z-axis (3-4-5 triangle). -/
def sampleRot : M3 := ⟨3/5, -(4/5), 0, 4/5, 3/5, 0, 0, 0, 1⟩

/-- Edge `body → origin` with translation (1,2,3). -/
def sampleE1 : Transform := ⟨⟨M3.one, ⟨1, 2, 3⟩⟩, "body", "origin"⟩

/-- Edge `head → body` with a nontrivial rotation. -/
def sampleE2 : Transform := ⟨⟨sampleRot, ⟨0, 0, 1/2⟩⟩, "head", "body"⟩

/-- Edge `arm → body`. -/
def sampleE3 : Transform := ⟨⟨M3.one, ⟨0, 1, 0⟩⟩, "arm", "body"⟩

/-- A small three-edge frame tree. -/
def sampleTree : FrameTree := ⟨[sampleE1, sampleE2, sampleE3]⟩

/-- An edge disconnected from the sample tree. -/
def sampleE4 : Transform := ⟨⟨M3.one, ⟨1, 0, 0⟩⟩, "dc", "dp"⟩

/-- A forest with the sample tree and a disconnected single-edge component. -/
def sampleForest : FrameForest := ⟨[sampleTree, ⟨[sampleE4]⟩]⟩

/-- Rotation vector with a positive first component smaller than machine
epsilon and a negative second component, of exactly rational norm. -/
def knSample : V3 := ⟨3/18014398509481984, -(1/4503599627370496), 0⟩

/-- Exact Euclidean norm of `knSample` (and of its negation). -/
def knNrm : V3 → ℚ := fun _ => 5/18014398509481984

/-- Rational stand-in for `pi` placed exactly at the norm of `knSample`. -/
def knPi : ℚ := 5/18014398509481984

/-! Algebraic laws of the rigid-transform primitive (spec §4.1). -/

theorem M3.transpose_transpose (A : M3) : A.transpose.transpose = A := rfl

theorem M3.transpose_mul (A B : M3) : (A.mul B).transpose = B.transpose.mul A.transpose := by
  cases A
  cases B
  simp only [M3.mul, M3.transpose, M3.mk.injEq]
  and_intros <;> ring

theorem M3.mul_assoc (A B C : M3) : (A.mul B).mul C = A.mul (B.mul C) := by
  cases A
  cases B
  cases C
  simp only [M3.mul, M3.mk.injEq]
  and_intros <;> ring

theorem M3.mul_one (A : M3) : A.mul M3.one = A := by
  cases A
  simp only [M3.mul, M3.one, M3.mk.injEq]
  and_intros <;> ring

theorem M3.one_mul (A : M3) : M3.one.mul A = A := by
  cases A
  simp only [M3.mul, M3.one, M3.mk.injEq]
  and_intros <;> ring

theorem SE3.comp_one_right (a : SE3) : a.comp SE3.one = a := by
  cases a with
  | mk R t =>
    cases R
    cases t
    simp only [SE3.comp, SE3.one, M3.mul, M3.one, M3.mulV, V3.add, V3.zero, SE3.mk.injEq,
      M3.mk.injEq, V3.mk.injEq]
    and_intros <;> ring

theorem SE3.comp_one_left (a : SE3) : SE3.one.comp a = a := by
  cases a with
  | mk R t =>
    cases R
    cases t
    simp only [SE3.comp, SE3.one, M3.mul, M3.one, M3.mulV, V3.add, V3.zero, SE3.mk.injEq,
      M3.mk.injEq, V3.mk.injEq]
    and_intros <;> ring

theorem SE3.comp_assoc (a b c : SE3) : (a.comp b).comp c = a.comp (b.comp c) := by
  cases a with
  | mk Ra ta =>
    cases b with
    | mk Rb tb =>
      cases c with
      | mk Rc tc =>
        cases Ra
        cases Rb
        cases Rc
        cases ta
        cases tb
        cases tc
        simp only [SE3.comp, M3.mul, M3.mulV, V3.add, SE3.mk.injEq, M3.mk.injEq, V3.mk.injEq]
        and_intros <;> ring

theorem IsRigid.one : IsRigid SE3.one := by
  constructor <;>
    · show M3.mul _ _ = M3.one
      simp only [SE3.one, M3.mul, M3.transpose, M3.one, M3.mk.injEq]
      and_intros <;> ring

theorem IsRigid.comp {a b : SE3} (ha : IsRigid a) (hb : IsRigid b) : IsRigid (a.comp b) := by
  constructor
  · show ((a.R.mul b.R).mul (a.R.mul b.R).transpose) = M3.one
    rw [M3.transpose_mul, M3.mul_assoc, ← M3.mul_assoc b.R, hb.1, M3.one_mul, ha.1]
  · show ((a.R.mul b.R).transpose.mul (a.R.mul b.R)) = M3.one
    rw [M3.transpose_mul, M3.mul_assoc, ← M3.mul_assoc a.R.transpose, ha.2, M3.one_mul, hb.2]

theorem IsRigid.inv {a : SE3} (ha : IsRigid a) : IsRigid a.inv := by
  constructor
  · show (a.R.transpose.mul a.R.transpose.transpose) = M3.one
    rw [M3.transpose_transpose]
    exact ha.2
  · show (a.R.transpose.transpose.mul a.R.transpose) = M3.one
    rw [M3.transpose_transpose]
    exact ha.1

theorem SE3.inv_comp_self {a : SE3} (ha : IsRigid a) : a.inv.comp a = SE3.one := by
  have h2 := ha.2
  cases a with
  | mk R t =>
    cases R with
    | mk a11 a12 a13 a21 a22 a23 a31 a32 a33 =>
      cases t with
      | mk tx ty tz =>
        simp only [M3.transpose, M3.mul, M3.one, M3.mk.injEq] at h2
        obtain ⟨h11, h12, h13, h21, h22, h23, h31, h32, h33⟩ := h2
        ext <;>
          simp only [SE3.inv, SE3.comp, SE3.one, M3.mul, M3.mulV, M3.transpose, V3.add,
            V3.zero, M3.one]
        · linear_combination h11
        · linear_combination h12
        · linear_combination h13
        · linear_combination h21
        · linear_combination h22
        · linear_combination h23
        · linear_combination h31
        · linear_combination h32
        · linear_combination h33
        · ring
        · ring
        · ring

theorem SE3.comp_inv_self {a : SE3} (ha : IsRigid a) : a.comp a.inv = SE3.one := by
  have h1 := ha.1
  cases a with
  | mk R t =>
    cases R with
    | mk a11 a12 a13 a21 a22 a23 a31 a32 a33 =>
      cases t with
      | mk tx ty tz =>
        simp only [M3.transpose, M3.mul, M3.one, M3.mk.injEq] at h1
        obtain ⟨h11, h12, h13, h21, h22, h23, h31, h32, h33⟩ := h1
        ext <;>
          simp only [SE3.inv, SE3.comp, SE3.one, M3.mul, M3.mulV, M3.transpose, V3.add,
            V3.zero, M3.one]
        · linear_combination h11
        · linear_combination h12
        · linear_combination h13
        · linear_combination h21
        · linear_combination h22
        · linear_combination h23
        · linear_combination h31
        · linear_combination h32
        · linear_combination h33
        · linear_combination (-tx) * h11 + (-ty) * h12 + (-tz) * h13
        · linear_combination (-tx) * h21 + (-ty) * h22 + (-tz) * h23
        · linear_combination (-tx) * h31 + (-ty) * h32 + (-tz) * h33

/-! Basic properties of edge lookup and ancestor chains. -/

theorem findEdge_mem {es : List Transform} {f : String} {e : Transform}
    (h : findEdge es f = some e) : e ∈ es ∧ e.child = f := by
  refine ⟨List.mem_of_find?_eq_some h, ?_⟩
  have := List.find?_some h
  simpa using this

theorem findEdge_eq_none_iff {es : List Transform} {f : String} :
    findEdge es f = none ↔ ∀ e ∈ es, e.child ≠ f := by
  simp [findEdge, List.find?_eq_none]

theorem child_injective {es : List Transform}
    (hnd : (es.map (fun e => e.child)).Nodup) {e e' : Transform} (he : e ∈ es) (he' : e' ∈ es)
    (h : e.child = e'.child) : e = e' :=
  List.inj_on_of_nodup_map hnd he he' h

theorem findEdge_of_nodup {es : List Transform}
    (hnd : (es.map (fun e => e.child)).Nodup) {e : Transform} (he : e ∈ es) :
    findEdge es e.child = some e := by
  cases h : findEdge es e.child with
  | some e' =>
    obtain ⟨hm, hc⟩ := findEdge_mem h
    rw [child_injective hnd hm he hc]
  | none =>
    exact absurd rfl ((findEdge_eq_none_iff.mp h) e he)

theorem chain_ne_nil (es : List Transform) (n : Nat) (f : String) : chain es n f ≠ [] := by
  cases n with
  | zero => simp [chain]
  | succ n =>
    cases h : findEdge es f with
    | none => simp [chain, h]
    | some e => simp [chain, h]

theorem chain_succ_none {es : List Transform} {f : String} (h : findEdge es f = none) (n : Nat) :
    chain es (n + 1) f = [f] := by
  simp [chain, h]

theorem chain_succ_some {es : List Transform} {f : String} {e : Transform}
    (h : findEdge es f = some e) (n : Nat) : chain es (n + 1) f = f :: chain es n e.parent := by
  simp [chain, h]

theorem chain_no_edge {es : List Transform} {f : String} (h : findEdge es f = none) (n : Nat) :
    chain es n f = [f] := by
  cases n with
  | zero => rfl
  | succ n => exact chain_succ_none h n

theorem self_mem_chain (es : List Transform) (n : Nat) (f : String) : f ∈ chain es n f := by
  cases n with
  | zero => simp [chain]
  | succ n =>
    cases h : findEdge es f with
    | none => simp [chain, h]
    | some e => simp [chain, h]

theorem getLast?_cons_of_ne_nil {α : Type} (a : α) {l : List α} (h : l ≠ []) :
    (a :: l).getLast? = l.getLast? := by
  cases l with
  | nil => exact absurd rfl h
  | cons b t => exact List.getLast?_cons_cons

theorem upRoot_succ_some {es : List Transform} {f : String} {e : Transform}
    (h : findEdge es f = some e) (n : Nat) :
    upRoot es (n + 1) f = SE3.comp (upRoot es n e.parent) e.se3 := by
  simp [upRoot, h]

theorem upRoot_succ_none {es : List Transform} {f : String} (h : findEdge es f = none) (n : Nat) :
    upRoot es (n + 1) f = SE3.one := by
  simp [upRoot, h]

theorem upTo_succ_self (es : List Transform) (n : Nat) (f : String) :
    upTo es (n + 1) f f = SE3.one := by
  simp [upTo]

theorem upTo_succ_ne_some {es : List Transform} {f l : String} {e : Transform}
    (hne : (f == l) = false) (h : findEdge es f = some e) (n : Nat) :
    upTo es (n + 1) f l = SE3.comp (upTo es n e.parent l) e.se3 := by
  simp [upTo, hne, h]

theorem upTo_succ_ne_none {es : List Transform} {f l : String}
    (hne : (f == l) = false) (h : findEdge es f = none) (n : Nat) :
    upTo es (n + 1) f l = SE3.one := by
  simp [upTo, hne, h]

theorem chain_stable {es : List Transform} {r : String} (hr : findEdge es r = none) :
    ∀ (n : Nat) (f : String), (chain es n f).getLast? = some r →
      ∀ m, n ≤ m → chain es m f = chain es n f := by
  intro n
  induction n with
  | zero =>
    intro f hlast m _
    simp only [chain, List.getLast?_singleton, Option.some.injEq] at hlast
    subst hlast
    exact chain_no_edge hr m
  | succ n ih =>
    intro f hlast m hm
    cases h : findEdge es f with
    | none =>
      rw [chain_succ_none h] at hlast ⊢
      simp only [List.getLast?_singleton, Option.some.injEq] at hlast
      subst hlast
      exact chain_no_edge hr m
    | some e =>
      rw [chain_succ_some h] at hlast ⊢
      rw [getLast?_cons_of_ne_nil _ (chain_ne_nil es n e.parent)] at hlast
      cases m with
      | zero => omega
      | succ m' =>
        rw [chain_succ_some h]
        rw [ih e.parent hlast m' (Nat.le_of_succ_le_succ hm)]

theorem upRoot_stable {es : List Transform} {r : String} (hr : findEdge es r = none) :
    ∀ (n : Nat) (f : String), (chain es n f).getLast? = some r →
      ∀ m, n ≤ m → upRoot es m f = upRoot es n f := by
  intro n
  induction n with
  | zero =>
    intro f hlast m _
    simp only [chain, List.getLast?_singleton, Option.some.injEq] at hlast
    subst hlast
    cases m with
    | zero => rfl
    | succ m' => simp [upRoot, hr]
  | succ n ih =>
    intro f hlast m hm
    cases h : findEdge es f with
    | none =>
      rw [chain_succ_none h] at hlast
      simp only [List.getLast?_singleton, Option.some.injEq] at hlast
      subst hlast
      cases m with
      | zero => omega
      | succ m' => simp [upRoot, hr]
    | some e =>
      rw [chain_succ_some h] at hlast
      rw [getLast?_cons_of_ne_nil _ (chain_ne_nil es n e.parent)] at hlast
      cases m with
      | zero => omega
      | succ m' =>
        show upRoot es (m' + 1) f = upRoot es (n + 1) f
        simp only [upRoot, h]
        rw [ih e.parent hlast m' (Nat.le_of_succ_le_succ hm)]

theorem chain_split {es : List Transform} {r : String} (hr : findEdge es r = none) :
    ∀ (n : Nat) (f l : String), l ∈ chain es n f → (chain es n f).getLast? = some r →
      (chain es n l).getLast? = some r ∧
        upRoot es n f = SE3.comp (upRoot es n l) (upTo es n f l) := by
  intro n
  induction n with
  | zero =>
    intro f l hmem hlast
    have hlf : l = f := by simpa [chain] using hmem
    subst hlf
    refine ⟨hlast, ?_⟩
    show SE3.one = SE3.comp SE3.one SE3.one
    rw [SE3.comp_one_right]
  | succ n ih =>
    intro f l hmem hlast
    cases h : findEdge es f with
    | none =>
      rw [chain_succ_none h] at hmem hlast
      have hlf : l = f := by simpa using hmem
      subst hlf
      refine ⟨by rw [chain_succ_none h]; exact hlast, ?_⟩
      rw [upTo_succ_self, SE3.comp_one_right]
    | some e =>
      rw [chain_succ_some h] at hmem hlast
      rw [getLast?_cons_of_ne_nil _ (chain_ne_nil es n e.parent)] at hlast
      by_cases hlf : l = f
      · subst hlf
        constructor
        · rw [chain_succ_some h]
          rw [getLast?_cons_of_ne_nil _ (chain_ne_nil es n e.parent)]
          exact hlast
        · rw [upTo_succ_self, SE3.comp_one_right]
      · have hmem' : l ∈ chain es n e.parent := by
          rcases List.mem_cons.mp hmem with h' | h'
          · exact absurd h' hlf
          · exact h'
        obtain ⟨ih1, ih2⟩ := ih e.parent l hmem' hlast
        refine ⟨by rw [chain_stable hr n l ih1 (n + 1) (Nat.le_succ n)]; exact ih1, ?_⟩
        have hup : upRoot es (n + 1) l = upRoot es n l :=
          upRoot_stable hr n l ih1 (n + 1) (Nat.le_succ n)
        have hbeq : (f == l) = false := by
          simp only [beq_eq_false_iff_ne, ne_eq]
          exact fun h' => hlf h'.symm
        calc upRoot es (n + 1) f = SE3.comp (upRoot es n e.parent) e.se3 := upRoot_succ_some h n
          _ = SE3.comp (SE3.comp (upRoot es n l) (upTo es n e.parent l)) e.se3 := by rw [ih2]
          _ = SE3.comp (upRoot es n l) (SE3.comp (upTo es n e.parent l) e.se3) :=
              SE3.comp_assoc _ _ _
          _ = SE3.comp (upRoot es (n + 1) l) (upTo es (n + 1) f l) := by
              rw [hup, upTo_succ_ne_some hbeq h]

theorem upRoot_rigid {es : List Transform} (h : ∀ e ∈ es, IsRigid e.se3) (n : Nat) (f : String) :
    IsRigid (upRoot es n f) := by
  induction n generalizing f with
  | zero => exact IsRigid.one
  | succ n ih =>
    cases he : findEdge es f with
    | none => simpa [upRoot, he] using IsRigid.one
    | some e =>
      simp only [upRoot, he]
      exact IsRigid.comp (ih e.parent) (h e (findEdge_mem he).1)

theorem upTo_rigid {es : List Transform} (h : ∀ e ∈ es, IsRigid e.se3) (n : Nat) (f l : String) :
    IsRigid (upTo es n f l) := by
  induction n generalizing f with
  | zero => exact IsRigid.one
  | succ n ih =>
    cases hfl : (f == l) with
    | true =>
      have hself : f = l := by simpa using hfl
      subst hself
      rw [upTo_succ_self]
      exact IsRigid.one
    | false =>
      cases he : findEdge es f with
      | none =>
        rw [upTo_succ_ne_none hfl he]
        exact IsRigid.one
      | some e =>
        rw [upTo_succ_ne_some hfl he]
        exact IsRigid.comp (ih e.parent) (h e (findEdge_mem he).1)

theorem chain_mem_parent {es : List Transform} {g f : String} {n : Nat}
    (h : g ∈ chain es n f) : g = f ∨ ∃ e ∈ es, e.parent = g := by
  induction n generalizing f with
  | zero =>
    simp only [chain, List.mem_singleton] at h
    exact Or.inl h
  | succ n ih =>
    cases he : findEdge es f with
    | none =>
      rw [chain_succ_none he] at h
      simp only [List.mem_singleton] at h
      exact Or.inl h
    | some e =>
      rw [chain_succ_some he] at h
      rcases List.mem_cons.mp h with h' | h'
      · exact Or.inl h'
      · rcases ih h' with h'' | h''
        · exact Or.inr ⟨e, (findEdge_mem he).1, h''.symm⟩
        · exact Or.inr h''

/-! Consequences of the tree invariants. -/

theorem validTree_spec {T : FrameTree} (hv : validTreeB T = true) :
    ∃ r, rootOf T.edges = some r ∧ T.edges ≠ [] ∧
      (T.edges.map (fun e => e.child)).Nodup ∧
      ∀ e ∈ T.edges, (chain T.edges (fuelOf T.edges) e.child).getLast? = some r := by
  unfold validTreeB at hv
  cases h : rootOf T.edges with
  | none =>
    rw [h] at hv
    exact absurd hv (by simp)
  | some r =>
    rw [h] at hv
    simp only [Bool.and_eq_true, List.all_eq_true, decide_eq_true_eq, beq_iff_eq,
      Bool.not_eq_true'] at hv
    refine ⟨r, rfl, ?_, hv.1.2, hv.2⟩
    intro hnil
    rw [hnil] at hv
    simp at hv

theorem root_no_edge {es : List Transform} {r : String} (h : rootOf es = some r) :
    findEdge es r = none := by
  unfold rootOf at h
  cases hf : es.find? (fun e => es.all (fun x => x.child != e.parent)) with
  | none =>
    rw [hf] at h
    exact Option.noConfusion h
  | some e0 =>
    rw [hf] at h
    simp only [Option.map_some', Option.some.injEq] at h
    subst h
    have hp := List.find?_some hf
    simp only [List.all_eq_true, bne_iff_ne, ne_eq] at hp
    exact findEdge_eq_none_iff.mpr hp

theorem root_known {es : List Transform} {r : String} (h : rootOf es = some r) :
    knownB es r = true := by
  unfold rootOf at h
  cases hf : es.find? (fun e => es.all (fun x => x.child != e.parent)) with
  | none =>
    rw [hf] at h
    exact Option.noConfusion h
  | some e0 =>
    rw [hf] at h
    simp only [Option.map_some', Option.some.injEq] at h
    subst h
    have hm := List.mem_of_find?_eq_some hf
    simp only [knownB, List.any_eq_true, Bool.or_eq_true, beq_iff_eq]
    exact ⟨e0, hm, Or.inr rfl⟩

theorem knownB_iff {es : List Transform} {f : String} :
    knownB es f = true ↔ ∃ e ∈ es, e.child = f ∨ e.parent = f := by
  simp [knownB, List.any_eq_true]

theorem framesOf_mem {es : List Transform} {f : String} :
    f ∈ framesOf es ↔ ∃ e ∈ es, e.child = f ∨ e.parent = f := by
  induction es with
  | nil => simp [framesOf]
  | cons e t ih =>
    simp only [framesOf, List.mem_cons, ih]
    constructor
    · rintro (rfl | rfl | ⟨e', he', hor⟩)
      · exact ⟨e, Or.inl rfl, Or.inl rfl⟩
      · exact ⟨e, Or.inl rfl, Or.inr rfl⟩
      · exact ⟨e', Or.inr he', hor⟩
    · rintro ⟨e', heq | hm, hor⟩
      · subst heq
        rcases hor with h | h
        · exact Or.inl h.symm
        · exact Or.inr (Or.inl h.symm)
      · exact Or.inr (Or.inr ⟨e', hm, hor⟩)

theorem knownB_iff_frames {es : List Transform} {f : String} :
    knownB es f = true ↔ f ∈ framesOf es := by
  rw [knownB_iff, framesOf_mem]

theorem valid_known_chain {T : FrameTree} (hv : validTreeB T = true) {r : String}
    (hroot : rootOf T.edges = some r) {f : String} (hf : knownB T.edges f = true) :
    (chain T.edges (fuelOf T.edges) f).getLast? = some r := by
  obtain ⟨r2, hroot2, _, hnd, hall⟩ := validTree_spec hv
  have hrr : r2 = r := by
    rw [hroot2] at hroot
    exact Option.some.inj hroot
  subst hrr
  obtain ⟨e, he, hcp⟩ := knownB_iff.mp hf
  rcases hcp with hc | hp
  · subst hc
    exact hall e he
  · subst hp
    have hfe : findEdge T.edges e.child = some e := findEdge_of_nodup hnd he
    have hstep : chain T.edges (fuelOf T.edges) e.child =
        e.child :: chain T.edges T.edges.length e.parent := chain_succ_some hfe _
    have hlast := hall e he
    rw [hstep, getLast?_cons_of_ne_nil _ (chain_ne_nil _ _ _)] at hlast
    have hr : findEdge T.edges r2 = none := root_no_edge hroot2
    rw [chain_stable hr T.edges.length e.parent hlast (fuelOf T.edges)
      (Nat.le_succ T.edges.length)]
    exact hlast

/-! Derived group laws for rigid transforms. -/

theorem SE3.inv_one : SE3.one.inv = SE3.one := by
  rw [← SE3.comp_one_right SE3.one.inv]
  exact SE3.inv_comp_self IsRigid.one

theorem SE3.inv_inv {x : SE3} (hx : IsRigid x) : x.inv.inv = x := by
  calc x.inv.inv = SE3.comp x.inv.inv SE3.one := (SE3.comp_one_right _).symm
    _ = SE3.comp x.inv.inv (SE3.comp x.inv x) := by rw [SE3.inv_comp_self hx]
    _ = SE3.comp (SE3.comp x.inv.inv x.inv) x := (SE3.comp_assoc _ _ _).symm
    _ = SE3.comp SE3.one x := by rw [SE3.inv_comp_self hx.inv]
    _ = x := SE3.comp_one_left x

theorem SE3.inv_comp {x y : SE3} (hx : IsRigid x) (hy : IsRigid y) :
    (x.comp y).inv = SE3.comp y.inv x.inv := by
  have h1 : SE3.comp (x.comp y) (SE3.comp y.inv x.inv) = SE3.one := by
    calc SE3.comp (x.comp y) (SE3.comp y.inv x.inv)
        = SE3.comp x (SE3.comp y (SE3.comp y.inv x.inv)) := SE3.comp_assoc _ _ _
      _ = SE3.comp x (SE3.comp (SE3.comp y y.inv) x.inv) := by rw [SE3.comp_assoc]
      _ = SE3.comp x (SE3.comp SE3.one x.inv) := by rw [SE3.comp_inv_self hy]
      _ = SE3.comp x x.inv := by rw [SE3.comp_one_left]
      _ = SE3.one := SE3.comp_inv_self hx
  calc (x.comp y).inv = SE3.comp (x.comp y).inv SE3.one := (SE3.comp_one_right _).symm
    _ = SE3.comp (x.comp y).inv (SE3.comp (x.comp y) (SE3.comp y.inv x.inv)) := by rw [h1]
    _ = SE3.comp (SE3.comp (x.comp y).inv (x.comp y)) (SE3.comp y.inv x.inv) :=
        (SE3.comp_assoc _ _ _).symm
    _ = SE3.comp SE3.one (SE3.comp y.inv x.inv) := by rw [SE3.inv_comp_self (hx.comp hy)]
    _ = SE3.comp y.inv x.inv := SE3.comp_one_left _

theorem SE3.cancel_left {u x y : SE3} (hu : IsRigid u) (h : x = SE3.comp u y) :
    y = SE3.comp u.inv x := by
  subst h
  calc y = SE3.comp SE3.one y := (SE3.comp_one_left y).symm
    _ = SE3.comp (SE3.comp u.inv u) y := by rw [SE3.inv_comp_self hu]
    _ = SE3.comp u.inv (SE3.comp u y) := SE3.comp_assoc _ _ _

theorem SE3.collapse {u w z : SE3} (hu : IsRigid u) (hw : IsRigid w) :
    SE3.comp (SE3.comp u.inv w).inv (SE3.comp u.inv z) = SE3.comp w.inv z := by
  rw [SE3.inv_comp hu.inv hw, SE3.inv_inv hu]
  calc SE3.comp (SE3.comp w.inv u) (SE3.comp u.inv z)
      = SE3.comp w.inv (SE3.comp u (SE3.comp u.inv z)) := SE3.comp_assoc _ _ _
    _ = SE3.comp w.inv (SE3.comp (SE3.comp u u.inv) z) := by rw [SE3.comp_assoc]
    _ = SE3.comp w.inv (SE3.comp SE3.one z) := by rw [SE3.comp_inv_self hu]
    _ = SE3.comp w.inv z := by rw [SE3.comp_one_left]

/-! Behaviour of the cross-frame query on a tree. -/

theorem getSE3Tree_self {T : FrameTree} {f : String} (hf : knownB T.edges f = true) :
    getSE3Tree T f f = .ok SE3.one := by
  unfold getSE3Tree
  simp [hf]

theorem lcaFind_exists {T : FrameTree} (hv : validTreeB T = true) {r a b : String}
    (hroot : rootOf T.edges = some r) (ha : knownB T.edges a = true)
    (hb : knownB T.edges b = true) :
    ∃ l, (chain T.edges (fuelOf T.edges) a).find?
        (fun f => (chain T.edges (fuelOf T.edges) b).contains f) = some l := by
  have hca := valid_known_chain hv hroot ha
  have hcb := valid_known_chain hv hroot hb
  rw [← Option.isSome_iff_exists, List.find?_isSome]
  refine ⟨r, List.mem_of_mem_getLast? hca, ?_⟩
  simpa [List.elem_iff] using List.mem_of_mem_getLast? hcb

theorem getSE3Tree_known_ne {T : FrameTree} {a b l : String}
    (ha : knownB T.edges a = true) (hb : knownB T.edges b = true) (hab : (a == b) = false)
    (hfind : (chain T.edges (fuelOf T.edges) a).find?
      (fun f => (chain T.edges (fuelOf T.edges) b).contains f) = some l) :
    getSE3Tree T a b = .ok (SE3.comp (SE3.inv (upTo T.edges (fuelOf T.edges) b l))
      (upTo T.edges (fuelOf T.edges) a l)) := by
  have hfind' : (chain T.edges (fuelOf T.edges) a).find?
      (fun f => decide (f ∈ chain T.edges (fuelOf T.edges) b)) = some l := by
    simpa using hfind
  unfold getSE3Tree
  simp [ha, hb, hab, hfind']

theorem getSE3Tree_unknown {T : FrameTree} {a b : String}
    (h : knownB T.edges a = false ∨ knownB T.edges b = false) :
    getSE3Tree T a b = .error .unknownFrame := by
  unfold getSE3Tree
  rcases h with h | h <;> simp [h]

/-- Core symmetry result on a valid tree with rigid edge transforms. -/
theorem getSE3Tree_symm_aux {T : FrameTree} (hv : validTreeB T = true)
    (hrig : ∀ e ∈ T.edges, IsRigid e.se3) {a b : String}
    (ha : knownB T.edges a = true) (hb : knownB T.edges b = true) :
    ∃ X Y, getSE3Tree T a b = .ok X ∧ getSE3Tree T b a = .ok Y ∧ X = SE3.inv Y := by
  obtain ⟨r, hroot, _, _, _⟩ := validTree_spec hv
  have hr : findEdge T.edges r = none := root_no_edge hroot
  by_cases hab : a = b
  · subst hab
    refine ⟨SE3.one, SE3.one, getSE3Tree_self ha, getSE3Tree_self ha, ?_⟩
    rw [SE3.inv_one]
  · have hab1 : (a == b) = false := by simpa using hab
    have hab2 : (b == a) = false := by simpa using fun h => hab h.symm
    obtain ⟨l1, hl1⟩ := lcaFind_exists hv hroot ha hb
    obtain ⟨l2, hl2⟩ := lcaFind_exists hv hroot hb ha
    set n := fuelOf T.edges with hn
    have hca := valid_known_chain hv hroot ha
    have hcb := valid_known_chain hv hroot hb
    have hl1a : l1 ∈ chain T.edges n a := List.mem_of_find?_eq_some hl1
    have hl1b : l1 ∈ chain T.edges n b := by
      have := List.find?_some hl1
      simpa [List.elem_iff] using this
    have hl2b : l2 ∈ chain T.edges n b := List.mem_of_find?_eq_some hl2
    have hl2a : l2 ∈ chain T.edges n a := by
      have := List.find?_some hl2
      simpa [List.elem_iff] using this
    obtain ⟨_, EA1⟩ := chain_split hr n a l1 hl1a hca
    obtain ⟨_, EB1⟩ := chain_split hr n b l1 hl1b hcb
    obtain ⟨_, EB2⟩ := chain_split hr n b l2 hl2b hcb
    obtain ⟨_, EA2⟩ := chain_split hr n a l2 hl2a hca
    have hU1 : IsRigid (upRoot T.edges n l1) := upRoot_rigid hrig n l1
    have hU2 : IsRigid (upRoot T.edges n l2) := upRoot_rigid hrig n l2
    have hRa : IsRigid (upRoot T.edges n a) := upRoot_rigid hrig n a
    have hRb : IsRigid (upRoot T.edges n b) := upRoot_rigid hrig n b
    have hA1 : upTo T.edges n a l1 = SE3.comp (upRoot T.edges n l1).inv (upRoot T.edges n a) :=
      SE3.cancel_left hU1 EA1
    have hB1 : upTo T.edges n b l1 = SE3.comp (upRoot T.edges n l1).inv (upRoot T.edges n b) :=
      SE3.cancel_left hU1 EB1
    have hA2 : upTo T.edges n a l2 = SE3.comp (upRoot T.edges n l2).inv (upRoot T.edges n a) :=
      SE3.cancel_left hU2 EA2
    have hB2 : upTo T.edges n b l2 = SE3.comp (upRoot T.edges n l2).inv (upRoot T.edges n b) :=
      SE3.cancel_left hU2 EB2
    refine ⟨_, _, getSE3Tree_known_ne ha hb hab1 hl1, getSE3Tree_known_ne hb ha hab2 hl2, ?_⟩
    rw [hA1, hB1, hA2, hB2]
    rw [SE3.collapse hU1 hRb, SE3.collapse hU2 hRa]
    rw [SE3.inv_comp hRa.inv hRb, SE3.inv_inv hRa]

theorem getSE3Tree_isOk_iff {T : FrameTree} (hv : validTreeB T = true) (a b : String) :
    (getSE3Tree T a b).isOk = true ↔
      (knownB T.edges a = true ∧ knownB T.edges b = true) := by
  constructor
  · intro h
    by_cases hka : knownB T.edges a = true
    · by_cases hkb : knownB T.edges b = true
      · exact ⟨hka, hkb⟩
      · rw [getSE3Tree_unknown (Or.inr (by simpa using hkb))] at h
        simp [Except.isOk, Except.toBool] at h
    · rw [getSE3Tree_unknown (Or.inl (by simpa using hka))] at h
      simp [Except.isOk, Except.toBool] at h
  · rintro ⟨hka, hkb⟩
    obtain ⟨r, hroot, _, _, _⟩ := validTree_spec hv
    by_cases hab : a = b
    · subst hab
      rw [getSE3Tree_self hka]
      rfl
    · obtain ⟨l, hl⟩ := lcaFind_exists hv hroot hka hkb
      rw [getSE3Tree_known_ne hka hkb (by simpa using hab) hl]
      rfl

/-! Behaviour of the forest operations. -/

theorem treeFor_some_spec {F : FrameForest} {f : String} {T0 : FrameTree}
    (h : treeFor F f = some T0) : T0 ∈ F.trees ∧ knownB T0.edges f = true :=
  ⟨List.mem_of_find?_eq_some h, by simpa using List.find?_some h⟩

theorem treeFor_none_spec {F : FrameForest} {f : String} (h : treeFor F f = none) :
    ∀ T ∈ F.trees, knownB T.edges f = false := by
  intro T hT
  have := List.find?_eq_none.mp h T hT
  simpa using this

theorem getSE3Forest_same_tree {F : FrameForest} {a b : String} {T0 : FrameTree}
    (ha : treeFor F a = some T0) (hb : treeFor F b = some T0) :
    getSE3Forest F a b = getSE3Tree T0 a b := by
  unfold getSE3Forest
  rw [ha, hb]
  simp

theorem getSE3Forest_diff_tree {F : FrameForest} {a b : String} {Ta Tb : FrameTree}
    (ha : treeFor F a = some Ta) (hb : treeFor F b = some Tb) (hne : Ta ≠ Tb) :
    getSE3Forest F a b = .error .noPath := by
  unfold getSE3Forest
  rw [ha, hb]
  simp [hne]

theorem getSE3Forest_unknown {F : FrameForest} {a b : String}
    (h : treeFor F a = none ∨ treeFor F b = none) :
    getSE3Forest F a b = .error .unknownFrame := by
  unfold getSE3Forest
  rcases h with h | h
  · rw [h]
  · rw [h]
    cases treeFor F a <;> rfl

theorem validForestB_spec {F : FrameForest} (h : validForestB F = true) :
    (∀ T ∈ F.trees, validTreeB T = true) ∧ pairwiseDisjointB F.trees = true := by
  unfold validForestB at h
  simp only [Bool.and_eq_true, List.all_eq_true] at h
  exact h

/-! Behaviour of the update operations. -/

theorem updateTree_orphan {T : FrameTree} {e : Transform}
    (hc : knownB T.edges e.child = false) (hp : knownB T.edges e.parent = false) :
    updateTree T e = .error .orphanEdge := by
  unfold updateTree
  simp [hc, hp]

theorem updateForest_new {F : FrameForest} {e : Transform}
    (hc : treeFor F e.child = none) (hp : treeFor F e.parent = none) :
    updateForest F e = .ok ⟨F.trees ++ [⟨[e]⟩]⟩ := by
  unfold updateForest
  rw [hc, hp]

/-! Non-finite propagation laws of the float scalars. -/

theorem mulN_none_right (a : QN) : mulN a none = none := by cases a <;> rfl

theorem mulN_none_left (b : QN) : mulN none b = none := by cases b <;> rfl

theorem addN_none_right (a : QN) : addN a none = none := by cases a <;> rfl

theorem addN_none_left (b : QN) : addN none b = none := by cases b <;> rfl

theorem subN_none_right (a : QN) : subN a none = none := by cases a <;> rfl

theorem subN_none_left (b : QN) : subN none b = none := by cases b <;> rfl

theorem negV_negV (r : V3) : negV (negV r) = r := by
  ext <;> simp [negV]

/-! The claims. -/

/-- C2: for every frame name `f` known to a tree, and every frame name `g`
known to a forest (i.e. owned by some component tree), `get_transform(f, f)`
(resp. `get_transform(g, g)`) is exactly the identity rigid transform — zero
rotation and zero translation — which in particular is equality within the
1e-8 tolerance; the definition short-circuits on the name equality before any
graph traversal. -/
theorem claim_identity_law (T : FrameTree) (F : FrameForest) (f g : String) (Tf : FrameTree)
    (hT : knownB T.edges f = true) (hF : treeFor F g = some Tf) :
    getSE3Tree T f f = .ok SE3.one ∧ getSE3Forest F g g = .ok SE3.one := by
  refine ⟨getSE3Tree_self hT, ?_⟩
  rw [getSE3Forest_same_tree hF hF]
  exact getSE3Tree_self (treeFor_some_spec hF).2

unseal Rat.add Rat.mul Rat.inv Rat.sub in
theorem claim_identity_law_witness :
    knownB sampleTree.edges "head" = true ∧
    treeFor sampleForest "dc" = some ⟨[sampleE4]⟩ ∧
    getSE3Tree sampleTree "head" "head" = .ok SE3.one ∧
    getSE3Forest sampleForest "dc" "dc" = .ok SE3.one := by
  have h := claim_identity_law sampleTree sampleForest "head" "dc" ⟨[sampleE4]⟩
    (by decide) (by decide)
  exact ⟨by decide, by decide, h.1, h.2⟩

/-- C3: for frames `a`, `b` known to a valid tree with rigid edge transforms,
and frames `c`, `d` owned by one common component tree of a valid forest with
rigid edge transforms (i.e. reachable from each other), the transform returned
by `get_transform` in one direction is exactly the inverse of the transform
returned in the other direction. -/
theorem claim_symmetry_law (T : FrameTree) (F : FrameForest) (a b c d : String)
    (T0 : FrameTree) (hvT : validTreeB T = true) (hrigT : ∀ e ∈ T.edges, IsRigid e.se3)
    (ha : knownB T.edges a = true) (hb : knownB T.edges b = true)
    (hvF : validForestB F = true) (hrigF : ∀ Tf ∈ F.trees, ∀ e ∈ Tf.edges, IsRigid e.se3)
    (hc : treeFor F c = some T0) (hd : treeFor F d = some T0) :
    (∃ X Y, getSE3Tree T a b = .ok X ∧ getSE3Tree T b a = .ok Y ∧ X = SE3.inv Y) ∧
    (∃ X Y, getSE3Forest F c d = .ok X ∧ getSE3Forest F d c = .ok Y ∧ X = SE3.inv Y) := by
  refine ⟨getSE3Tree_symm_aux hvT hrigT ha hb, ?_⟩
  have hT0 := treeFor_some_spec hc
  have hvT0 := (validForestB_spec hvF).1 T0 hT0.1
  rw [getSE3Forest_same_tree hc hd, getSE3Forest_same_tree hd hc]
  exact getSE3Tree_symm_aux hvT0 (hrigF T0 hT0.1) hT0.2 (treeFor_some_spec hd).2

unseal Rat.add Rat.mul Rat.inv Rat.sub in
theorem claim_symmetry_law_witness :
    validTreeB sampleTree = true ∧ (∀ e ∈ sampleTree.edges, IsRigid e.se3) ∧
    validForestB sampleForest = true ∧
    ((∃ X Y, getSE3Tree sampleTree "head" "arm" = .ok X ∧
        getSE3Tree sampleTree "arm" "head" = .ok Y ∧ X = SE3.inv Y) ∧
      (∃ X Y, getSE3Forest sampleForest "dc" "dp" = .ok X ∧
        getSE3Forest sampleForest "dp" "dc" = .ok Y ∧ X = SE3.inv Y)) := by
  refine ⟨by decide, by decide, by decide, ?_⟩
  exact claim_symmetry_law sampleTree sampleForest "head" "arm" "dc" "dp" ⟨[sampleE4]⟩
    (by decide) (by decide) (by decide) (by decide) (by decide) (by decide)
    (by decide) (by decide)

/-- C4: updating a tree with an edge both of whose endpoints are unknown to it
fails with the orphan-edge graph error, and the state seen by the caller
afterwards is the unchanged tree — same frame list, same edge count. -/
theorem claim_tree_orphan_rejection (T : FrameTree) (e : Transform)
    (hc : knownB T.edges e.child = false) (hp : knownB T.edges e.parent = false) :
    updateTree T e = .error .orphanEdge ∧ applyUpdateTree T e = T ∧
      framesOf (applyUpdateTree T e).edges = framesOf T.edges ∧
      (applyUpdateTree T e).edges.length = T.edges.length := by
  have h := updateTree_orphan hc hp
  have happ : applyUpdateTree T e = T := by
    unfold applyUpdateTree
    rw [h]
  exact ⟨h, happ, by rw [happ], by rw [happ]⟩

unseal Rat.add Rat.mul Rat.inv Rat.sub in
theorem claim_tree_orphan_rejection_witness :
    knownB sampleTree.edges "xx" = false ∧ knownB sampleTree.edges "yy" = false ∧
    (updateTree sampleTree ⟨SE3.one, "xx", "yy"⟩ = .error .orphanEdge ∧
      applyUpdateTree sampleTree ⟨SE3.one, "xx", "yy"⟩ = sampleTree ∧
      framesOf (applyUpdateTree sampleTree ⟨SE3.one, "xx", "yy"⟩).edges =
        framesOf sampleTree.edges ∧
      (applyUpdateTree sampleTree ⟨SE3.one, "xx", "yy"⟩).edges.length =
        sampleTree.edges.length) := by
  refine ⟨by decide, by decide, ?_⟩
  exact claim_tree_orphan_rejection sampleTree ⟨SE3.one, "xx", "yy"⟩ (by decide) (by decide)

/-- C5: updating a forest with an edge both of whose endpoints are unknown to
every tree succeeds, appending exactly one new single-edge component: the tree
count grows by one, the existing components are untouched (they remain as the
prefix of the tree list), and the new component holds exactly the new edge. -/
theorem claim_forest_orphan_autocreate (F : FrameForest) (e : Transform)
    (hc : treeFor F e.child = none) (hp : treeFor F e.parent = none) :
    updateForest F e = .ok ⟨F.trees ++ [⟨[e]⟩]⟩ ∧
      applyUpdateForest F e = ⟨F.trees ++ [⟨[e]⟩]⟩ ∧
      (applyUpdateForest F e).trees.length = F.trees.length + 1 ∧
      (applyUpdateForest F e).trees.take F.trees.length = F.trees ∧
      (applyUpdateForest F e).trees.getLast? = some ⟨[e]⟩ := by
  have h := updateForest_new hc hp
  have happ : applyUpdateForest F e = ⟨F.trees ++ [⟨[e]⟩]⟩ := by
    unfold applyUpdateForest
    rw [h]
  refine ⟨h, happ, ?_, ?_, ?_⟩ <;> rw [happ] <;> simp

unseal Rat.add Rat.mul Rat.inv Rat.sub in
theorem claim_forest_orphan_autocreate_witness :
    treeFor sampleForest "xx" = none ∧ treeFor sampleForest "yy" = none ∧
    (updateForest sampleForest ⟨SE3.one, "xx", "yy"⟩ =
        .ok ⟨sampleForest.trees ++ [⟨[⟨SE3.one, "xx", "yy"⟩]⟩]⟩ ∧
      applyUpdateForest sampleForest ⟨SE3.one, "xx", "yy"⟩ =
        ⟨sampleForest.trees ++ [⟨[⟨SE3.one, "xx", "yy"⟩]⟩]⟩ ∧
      (applyUpdateForest sampleForest ⟨SE3.one, "xx", "yy"⟩).trees.length =
        sampleForest.trees.length + 1 ∧
      (applyUpdateForest sampleForest ⟨SE3.one, "xx", "yy"⟩).trees.take
          sampleForest.trees.length = sampleForest.trees ∧
      (applyUpdateForest sampleForest ⟨SE3.one, "xx", "yy"⟩).trees.getLast? =
        some ⟨[⟨SE3.one, "xx", "yy"⟩]⟩) := by
  refine ⟨by decide, by decide, ?_⟩
  exact claim_forest_orphan_autocreate sampleForest ⟨SE3.one, "xx", "yy"⟩
    (by decide) (by decide)

/-- C6: on a valid tree, `get_transform(a, b)` returns a transform exactly when
both names are known, failing with a lookup error otherwise; on a valid forest
it returns a transform exactly when both names are owned by one common
component tree, failing with a lookup error when a name is unknown or the two
frames lie in different components. -/
theorem claim_lookup_failure_conditions (T : FrameTree) (F : FrameForest) (a b c d : String)
    (hvT : validTreeB T = true) (hvF : validForestB F = true) :
    ((getSE3Tree T a b).isOk = true ↔
      (knownB T.edges a = true ∧ knownB T.edges b = true)) ∧
    ((getSE3Forest F c d).isOk = true ↔
      (∃ T0, treeFor F c = some T0 ∧ treeFor F d = some T0)) := by
  refine ⟨getSE3Tree_isOk_iff hvT a b, ?_⟩
  constructor
  · intro h
    cases hc : treeFor F c with
    | none =>
      rw [getSE3Forest_unknown (Or.inl hc)] at h
      simp [Except.isOk, Except.toBool] at h
    | some Tc =>
      cases hd : treeFor F d with
      | none =>
        rw [getSE3Forest_unknown (Or.inr hd)] at h
        simp [Except.isOk, Except.toBool] at h
      | some Td =>
        by_cases hne : Tc = Td
        · subst hne
          exact ⟨Tc, rfl, rfl⟩
        · rw [getSE3Forest_diff_tree hc hd hne] at h
          simp [Except.isOk, Except.toBool] at h
  · rintro ⟨T0, hc, hd⟩
    rw [getSE3Forest_same_tree hc hd]
    have hvT0 := (validForestB_spec hvF).1 T0 (treeFor_some_spec hc).1
    exact (getSE3Tree_isOk_iff hvT0 c d).mpr
      ⟨(treeFor_some_spec hc).2, (treeFor_some_spec hd).2⟩

unseal Rat.add Rat.mul Rat.inv Rat.sub in
theorem claim_lookup_failure_conditions_witness :
    validTreeB sampleTree = true ∧ validForestB sampleForest = true ∧
    (((getSE3Tree sampleTree "head" "bogus").isOk = true ↔
      (knownB sampleTree.edges "head" = true ∧ knownB sampleTree.edges "bogus" = true)) ∧
    ((getSE3Forest sampleForest "dc" "arm").isOk = true ↔
      (∃ T0, treeFor sampleForest "dc" = some T0 ∧ treeFor sampleForest "arm" = some T0))) := by
  refine ⟨by decide, by decide, ?_⟩
  exact claim_lookup_failure_conditions sampleTree sampleForest "head" "bogus" "dc" "arm"
    (by decide) (by decide)

unseal Rat.add Rat.mul Rat.inv Rat.sub in
/-- C7: evaluation of `rrand` at a failing input.  The initial Gaussian draw
`(0,0,0)` is near zero and triggers the resampling loop; the resampled draw
`(0,0,-1)` is accepted without being folded to the north hemisphere, so with
`pi = 3` and uniform draw `1/2` the produced rotation vector is `(0,0,-3/2)`,
whose third component is negative — outside the north hemisphere promised by
the claim and by the function's own docstring.  The norm function used is
exact at both draws. -/
theorem claim_rrand_south_output :
    ((fun v => if v = (⟨0, 0, -1⟩ : V3) then (1 : ℚ) else 0) ⟨0, 0, 0⟩) ^ 2 =
      dotV ⟨0, 0, 0⟩ ⟨0, 0, 0⟩ ∧
    ((fun v => if v = (⟨0, 0, -1⟩ : V3) then (1 : ℚ) else 0) ⟨0, 0, -1⟩) ^ 2 =
      dotV ⟨0, 0, -1⟩ ⟨0, 0, -1⟩ ∧
    (0 : ℚ) < 3 ∧ (0 : ℚ) ≤ 1/2 ∧ (1/2 : ℚ) < 1 ∧
    rrand1 3 (1/2) (fun v => if v = (⟨0, 0, -1⟩ : V3) then (1 : ℚ) else 0) ⟨0, 0, 0⟩
      (fun _ => ⟨0, 0, -1⟩) 5 = ⟨0, 0, -(3/2)⟩ ∧
    ((0 : ℚ) ≤ -(3/2)) = False := by
  decide

/-- C9: `rotate_axis_angle` raises its `ValueError` exactly on rotation vectors
without exactly 3 components: with 3 components it returns a value, with any
other arity it fails. -/
theorem claim_rotate_arity (cosF sinF : QN → QN) (nrm : List QN → QN) (v : VN) (r : List QN) :
    (r.length = 3 → (rotate_axis_angle cosF sinF nrm v r).isOk = true) ∧
    (r.length ≠ 3 → rotate_axis_angle cosF sinF nrm v r = .error .valueError) := by
  constructor
  · intro h3
    match r, h3 with
    | [r1, r2, r3], _ =>
      unfold rotate_axis_angle
      simp [Except.isOk, Except.toBool]
  · intro hne
    unfold rotate_axis_angle
    simp [hne]

theorem claim_rotate_arity_witness :
    (rotate_axis_angle (fun _ => some 1) (fun _ => some 0) (fun _ => some 0)
      ⟨some 1, some 0, some 0⟩ [some 0, some 1, some 0]).isOk = true ∧
    rotate_axis_angle (fun _ => some 1) (fun _ => some 0) (fun _ => some 0)
      ⟨some 1, some 0, some 0⟩ [some 0, some 1] = .error .valueError :=
  ⟨(claim_rotate_arity (fun _ => some 1) (fun _ => some 0) (fun _ => some 0)
      ⟨some 1, some 0, some 0⟩ [some 0, some 1, some 0]).1 (by decide),
   (claim_rotate_arity (fun _ => some 1) (fun _ => some 0) (fun _ => some 0)
      ⟨some 1, some 0, some 0⟩ [some 0, some 1]).2 (by decide)⟩

/-- C10: the zero rotation vector passes the size-3 check, but the axis
normalization divides by the zero norm, so every component of the result is
non-finite (NaN) — in particular the result is never the unchanged finite
input vector that the identity rotation would produce. -/
theorem claim_rotate_zero_division (cosF sinF : QN → QN) (nrm : List QN → QN) (v : VN)
    (hn : nrm [some 0, some 0, some 0] = some 0) :
    rotate_axis_angle cosF sinF nrm v [some 0, some 0, some 0] = .ok ⟨none, none, none⟩ ∧
    ∀ w : VN, w.x.isSome = true →
      rotate_axis_angle cosF sinF nrm v [some 0, some 0, some 0] ≠ .ok w := by
  have hmain : rotate_axis_angle cosF sinF nrm v [some 0, some 0, some 0] =
      .ok ⟨none, none, none⟩ := by
    unfold rotate_axis_angle
    simp [hn, crossN, dotN, smulN, addVN, divN, mulN_none_right, mulN_none_left,
      addN_none_right, addN_none_left, subN_none_right, subN_none_left]
  refine ⟨hmain, ?_⟩
  intro w hw hne
  rw [hmain] at hne
  have : (⟨none, none, none⟩ : VN) = w := Except.ok.inj hne
  rw [← this] at hw
  simp at hw

theorem claim_rotate_zero_division_witness :
    (fun _ => (some 0 : QN)) [some 0, some 0, some 0] = some 0 ∧
    (rotate_axis_angle (fun _ => some 1) (fun _ => some 0) (fun _ => some 0)
        ⟨some 1, some 2, some 3⟩ [some 0, some 0, some 0] = .ok ⟨none, none, none⟩ ∧
      ∀ w : VN, w.x.isSome = true →
        rotate_axis_angle (fun _ => some 1) (fun _ => some 0) (fun _ => some 0)
          ⟨some 1, some 2, some 3⟩ [some 0, some 0, some 0] ≠ .ok w) :=
  ⟨rfl, claim_rotate_zero_division (fun _ => some 1) (fun _ => some 0) (fun _ => some 0)
    ⟨some 1, some 2, some 3⟩ rfl⟩

unseal Rat.add Rat.mul Rat.inv Rat.sub in
/-- C8 counterexample: a rotation vector of exactly rational norm equal to the
`pi` stand-in, with first component strictly between `0` and machine epsilon
and negative second component.  `keep_north` flips it (second condition), but
flips its negation as well (first condition, since the negated first component
is negative), so the two antipodal representations are NOT mapped to one
representative, refuting the claim as stated. -/
theorem claim_keep_north_counterexample :
    0 ≤ knNrm knSample ∧ (knNrm knSample) ^ 2 = dotV knSample knSample ∧
    knNrm (negV knSample) = knNrm knSample ∧ |knNrm knSample - knPi| < epsQ ∧ 0 < knPi ∧
    keep_north knPi knNrm knSample = negV knSample ∧
    keep_north knPi knNrm (negV knSample) = knSample ∧
    keep_north knPi knNrm knSample ≠ keep_north knPi knNrm (negV knSample) := by
  decide

theorem keep_north_flip (piQ : ℚ) (nrm : V3 → ℚ) (r : V3) (hnorm : |nrm r - piQ| < epsQ)
    (hcond : r.x < 0 ∨ (|r.x| < epsQ ∧ r.y < 0) ∨ (|r.x| < epsQ ∧ |r.y| < epsQ ∧ r.z < 0)) :
    keep_north piQ nrm r = negV r := by
  unfold keep_north
  rw [if_pos hnorm]
  by_cases h1 : r.x < 0
  · rw [if_pos h1]
  · rw [if_neg h1]
    by_cases h2 : |r.x| < epsQ ∧ r.y < 0
    · rw [if_pos h2]
    · rw [if_neg h2]
      rcases hcond with hc | hc | hc
      · exact absurd hc h1
      · exact absurd hc h2
      · rw [if_pos hc]

theorem keep_north_keep (piQ : ℚ) (nrm : V3 → ℚ) (r : V3) (hnorm : |nrm r - piQ| < epsQ)
    (h1 : ¬(r.x < 0)) (h2 : ¬(|r.x| < epsQ ∧ r.y < 0))
    (h3 : ¬(|r.x| < epsQ ∧ |r.y| < epsQ ∧ r.z < 0)) :
    keep_north piQ nrm r = r := by
  unfold keep_north
  rw [if_pos hnorm, if_neg h1, if_neg h2, if_neg h3]

/-- C8 amended: `keep_north` maps a rotation vector whose norm is within
machine epsilon of `pi` and its negation to the same representative, provided
the first and second components are each either exactly zero or at least
machine epsilon in magnitude (the source compares `rx` and `ry` both against
zero and against the `eps` deadzone, inconsistently, so values of those two
components strictly inside `(0, eps)` — as in the counterexample — break the
canonicalization; `rz` is only ever compared against zero, so the third
component needs no restriction). -/
theorem claim_keep_north_amended (piQ : ℚ) (nrm : V3 → ℚ) (r : V3)
    (hnorm : |nrm r - piQ| < epsQ) (hneg : nrm (negV r) = nrm r)
    (hx : r.x = 0 ∨ epsQ ≤ |r.x|) (hy : r.y = 0 ∨ epsQ ≤ |r.y|) :
    keep_north piQ nrm r = keep_north piQ nrm (negV r) := by
  have heps : (0 : ℚ) < epsQ := by norm_num [epsQ]
  have hnormn : |nrm (negV r) - piQ| < epsQ := by rw [hneg]; exact hnorm
  have hnegx : (negV r).x = -r.x := rfl
  have hnegy : (negV r).y = -r.y := rfl
  have hnegz : (negV r).z = -r.z := rfl
  rcases hx with hx0 | hxB
  · have hx1 : ¬(r.x < 0) := by simp [hx0]
    have hx2 : |r.x| < epsQ := by simpa [hx0] using heps
    have hnx1 : ¬((negV r).x < 0) := by simp [hnegx, hx0]
    have hnx2 : |(negV r).x| < epsQ := by simpa [hnegx, hx0] using heps
    rcases hy with hy0 | hyB
    · have hy1 : ¬(r.y < 0) := by simp [hy0]
      have hny1 : ¬((negV r).y < 0) := by simp [hnegy, hy0]
      have hy2 : |r.y| < epsQ := by simpa [hy0] using heps
      have hny2 : |(negV r).y| < epsQ := by simpa [hnegy, hy0] using heps
      rcases lt_trichotomy r.z 0 with hzneg | hz0' | hzpos
      · rw [keep_north_flip piQ nrm r hnorm (Or.inr (Or.inr ⟨hx2, hy2, hzneg⟩)),
          keep_north_keep piQ nrm (negV r) hnormn hnx1 (fun h => hny1 h.2)
            (fun h => (show ¬((negV r).z < 0) by rw [hnegz]; linarith) h.2.2)]
      · have hreq : negV r = r := by
          ext <;> simp [negV, hx0, hy0, hz0']
        rw [hreq]
      · rw [keep_north_keep piQ nrm r hnorm hx1 (fun h => hy1 h.2)
            (fun h => (show ¬(r.z < 0) by linarith) h.2.2),
          keep_north_flip piQ nrm (negV r) hnormn
            (Or.inr (Or.inr ⟨hnx2, hny2, by rw [hnegz]; linarith⟩)), negV_negV]
    · have hnyabs : |(negV r).y| = |r.y| := by rw [hnegy, abs_neg]
      rcases lt_trichotomy r.y 0 with hyneg | hy0' | hypos
      · rw [keep_north_flip piQ nrm r hnorm (Or.inr (Or.inl ⟨hx2, hyneg⟩)),
          keep_north_keep piQ nrm (negV r) hnormn hnx1
            (fun h => absurd h.2 (show ¬((negV r).y < 0) by rw [hnegy]; linarith))
            (fun h => absurd h.2.1 (not_lt.mpr (hnyabs ▸ hyB)))]
      · rw [hy0'] at hyB
        simp at hyB
        exact absurd hyB (not_le.mpr heps)
      · rw [keep_north_keep piQ nrm r hnorm hx1
            (fun h => absurd h.2 (show ¬(r.y < 0) by linarith))
            (fun h => absurd h.2.1 (not_lt.mpr hyB)),
          keep_north_flip piQ nrm (negV r) hnormn
            (Or.inr (Or.inl ⟨hnx2, by rw [hnegy]; linarith⟩)), negV_negV]
  · have hnxabs : |(negV r).x| = |r.x| := by rw [hnegx, abs_neg]
    rcases lt_trichotomy r.x 0 with hxneg | hx0' | hxpos
    · rw [keep_north_flip piQ nrm r hnorm (Or.inl hxneg),
        keep_north_keep piQ nrm (negV r) hnormn
          (show ¬((negV r).x < 0) by rw [hnegx]; linarith)
          (fun h => absurd h.1 (not_lt.mpr (hnxabs ▸ hxB)))
          (fun h => absurd h.1 (not_lt.mpr (hnxabs ▸ hxB)))]
    · rw [hx0'] at hxB
      simp at hxB
      exact absurd hxB (not_le.mpr heps)
    · rw [keep_north_keep piQ nrm r hnorm (show ¬(r.x < 0) by linarith)
          (fun h => absurd h.1 (not_lt.mpr hxB)) (fun h => absurd h.1 (not_lt.mpr hxB)),
        keep_north_flip piQ nrm (negV r) hnormn (Or.inl (by rw [hnegx]; linarith)), negV_negV]

unseal Rat.add Rat.mul Rat.inv Rat.sub in
theorem claim_keep_north_amended_witness :
    |knNrm (⟨0, -(1/4503599627370496), 0⟩ : V3) - knPi| < epsQ ∧
    knNrm (negV ⟨0, -(1/4503599627370496), 0⟩) = knNrm ⟨0, -(1/4503599627370496), 0⟩ ∧
    epsQ ≤ |(⟨0, -(1/4503599627370496), 0⟩ : V3).y| ∧
    keep_north knPi knNrm ⟨0, -(1/4503599627370496), 0⟩ =
      keep_north knPi knNrm (negV ⟨0, -(1/4503599627370496), 0⟩) := by
  refine ⟨by decide, by decide, by decide, ?_⟩
  exact claim_keep_north_amended knPi knNrm ⟨0, -(1/4503599627370496), 0⟩ (by decide)
    (by decide) (Or.inl rfl) (Or.inr (by decide))

/-! Invariance of the tree structure under reordering of the edge list. -/

theorem findEdge_perm {es es' : List Transform} (hp : es.Perm es')
    (hnd : (es.map (fun e => e.child)).Nodup) (f : String) :
    findEdge es f = findEdge es' f := by
  cases h : findEdge es f with
  | none =>
    cases h' : findEdge es' f with
    | none => rfl
    | some e' =>
      obtain ⟨hm, hc⟩ := findEdge_mem h'
      exact absurd hc ((findEdge_eq_none_iff.mp h) e' (hp.mem_iff.mpr hm))
  | some e =>
    obtain ⟨hm, hc⟩ := findEdge_mem h
    cases h' : findEdge es' f with
    | none => exact absurd hc ((findEdge_eq_none_iff.mp h') e (hp.subset hm))
    | some e' =>
      obtain ⟨hm', hc'⟩ := findEdge_mem h'
      rw [child_injective hnd hm (hp.mem_iff.mpr hm') (hc.trans hc'.symm)]

theorem chain_congr_on {es es' : List Transform} :
    ∀ (n : Nat) (f : String), (∀ g ∈ chain es n f, findEdge es g = findEdge es' g) →
      chain es' n f = chain es n f := by
  intro n
  induction n with
  | zero => intro f _; rfl
  | succ n ih =>
    intro f hagree
    have hf : findEdge es f = findEdge es' f := hagree f (self_mem_chain _ _ _)
    cases h : findEdge es f with
    | none =>
      rw [h] at hf
      rw [chain_succ_none h, chain_succ_none hf.symm]
    | some e =>
      rw [h] at hf
      rw [chain_succ_some h, chain_succ_some hf.symm]
      have : chain es' n e.parent = chain es n e.parent := by
        refine ih e.parent (fun g hg => hagree g ?_)
        rw [chain_succ_some h]
        exact List.mem_cons_of_mem _ hg
      rw [this]

theorem knownB_perm {es es' : List Transform} (hp : es.Perm es') (f : String) :
    knownB es f = knownB es' f := by
  have hiff : knownB es f = true ↔ knownB es' f = true := by
    rw [knownB_iff, knownB_iff]
    constructor <;> rintro ⟨e, hm, h⟩
    · exact ⟨e, hp.subset hm, h⟩
    · exact ⟨e, hp.mem_iff.mpr hm, h⟩
  exact Bool.eq_iff_iff.mpr hiff

theorem cand_parent_eq_root {T : FrameTree} (hv : validTreeB T = true) {r : String}
    (hroot : rootOf T.edges = some r) {e : Transform} (he : e ∈ T.edges)
    (hcand : ∀ x ∈ T.edges, x.child ≠ e.parent) : e.parent = r := by
  obtain ⟨r2, hroot2, _, hnd, hall⟩ := validTree_spec hv
  have hrr : r2 = r := by
    rw [hroot2] at hroot
    exact Option.some.inj hroot
  subst hrr
  have hfe : findEdge T.edges e.child = some e := findEdge_of_nodup hnd he
  have hpe : findEdge T.edges e.parent = none := findEdge_eq_none_iff.mpr hcand
  have hlast := hall e he
  rw [show fuelOf T.edges = T.edges.length + 1 from rfl] at hlast
  rw [chain_succ_some hfe, chain_no_edge hpe] at hlast
  simpa using hlast

theorem rootOf_perm {T : FrameTree} (hv : validTreeB T = true) {es' : List Transform}
    (hp : T.edges.Perm es') : rootOf es' = rootOf T.edges := by
  obtain ⟨r, hroot, _, _, _⟩ := validTree_spec hv
  rw [hroot]
  unfold rootOf
  cases hf : es'.find? (fun e => es'.all (fun x => x.child != e.parent)) with
  | none =>
    exfalso
    have hroot0 := hroot
    unfold rootOf at hroot0
    cases hf0 : T.edges.find? (fun e => T.edges.all (fun x => x.child != e.parent)) with
    | none =>
      rw [hf0] at hroot0
      exact Option.noConfusion hroot0
    | some e0 =>
      have hm0 : e0 ∈ es' := hp.subset (List.mem_of_find?_eq_some hf0)
      have hpred0 := List.find?_some hf0
      have hpred' : (es'.all fun x => x.child != e0.parent) = true := by
        rw [List.all_eq_true] at hpred0 ⊢
        intro x hx
        exact hpred0 x (hp.mem_iff.mpr hx)
      have := List.find?_eq_none.mp hf e0 hm0
      rw [hpred'] at this
      exact this rfl
  | some e1 =>
    simp only [Option.map_some', Option.some.injEq]
    have hm1 : e1 ∈ T.edges := hp.mem_iff.mpr (List.mem_of_find?_eq_some hf)
    have hpred1 := List.find?_some hf
    rw [List.all_eq_true] at hpred1
    have hcand : ∀ x ∈ T.edges, x.child ≠ e1.parent := by
      intro x hx
      have := hpred1 x (hp.subset hx)
      simpa using this
    exact cand_parent_eq_root hv hroot hm1 hcand

theorem validTree_perm {T : FrameTree} (hv : validTreeB T = true) {es' : List Transform}
    (hp : T.edges.Perm es') : validTreeB ⟨es'⟩ = true := by
  obtain ⟨r, hroot, hne, hnd, hall⟩ := validTree_spec hv
  have hroot' : rootOf es' = some r := by rw [rootOf_perm hv hp, hroot]
  unfold validTreeB
  rw [show (⟨es'⟩ : FrameTree).edges = es' from rfl, hroot']
  simp only [Bool.and_eq_true, List.all_eq_true, decide_eq_true_eq, beq_iff_eq,
    Bool.not_eq_true']
  refine ⟨⟨?_, ?_⟩, ?_⟩
  · cases hes' : es' with
    | nil =>
      rw [hes'] at hp
      exact absurd (List.Perm.eq_nil hp) hne
    | cons x t => rfl
  · exact ((hp.map (fun e => e.child)).nodup_iff).mp hnd
  · intro e he'
    have heT : e ∈ T.edges := hp.mem_iff.mpr he'
    have hfuel : fuelOf es' = fuelOf T.edges := by
      unfold fuelOf
      rw [hp.length_eq]
    rw [hfuel,
      @chain_congr_on T.edges es' (fuelOf T.edges) e.child
        (fun g _ => findEdge_perm hp hnd g)]
    exact hall e heT

/-! Sorting lemmas. -/

theorem insertionSort_of_sorted {α : Type} {r : α → α → Prop} [DecidableRel r] {l : List α}
    (h : List.Sorted r l) : l.insertionSort r = l := by
  induction l with
  | nil => rfl
  | cons a t ih =>
    show (t.insertionSort r).orderedInsert r a = a :: t
    rw [ih h.of_cons]
    cases t with
    | nil => rfl
    | cons b t' =>
      exact List.orderedInsert_of_le r t' (List.rel_of_sorted_cons h b (List.mem_cons_self b t'))

theorem sortEdges_perm (es : List Transform) : (sortEdges es).Perm es :=
  List.perm_insertionSort _ _

theorem sortEdges_sorted (es : List Transform) : List.Sorted edgeLE (sortEdges es) :=
  List.sorted_insertionSort _ _

theorem sortEdges_of_sorted {es : List Transform} (h : List.Sorted edgeLE es) :
    sortEdges es = es :=
  insertionSort_of_sorted h

theorem sortEdges_idem (es : List Transform) : sortEdges (sortEdges es) = sortEdges es :=
  sortEdges_of_sorted (sortEdges_sorted es)

theorem sortTrees_perm (ts : List FrameTree) : (sortTrees ts).Perm ts :=
  List.perm_insertionSort _ _

theorem sortTrees_sorted (ts : List FrameTree) : List.Sorted treeLE (sortTrees ts) :=
  List.sorted_insertionSort _ _

theorem sortTrees_of_sorted {ts : List FrameTree} (h : List.Sorted treeLE ts) :
    sortTrees ts = ts :=
  insertionSort_of_sorted h

theorem toRec_toTransform (e : Transform) : (Transform.toRec e).toTransform = e := rfl

theorem map_toRec_toTransform (es : List Transform) :
    (es.map Transform.toRec).map EdgeRec.toTransform = es := by
  induction es with
  | nil => rfl
  | cons e t ih =>
    simp only [List.map_cons, toRec_toTransform, ih]

/-- Round trip of a single valid tree. -/
theorem roundTripTree {T : FrameTree} (hv : validTreeB T = true) :
    fromListTree (toListTree T) = .ok ⟨sortEdges T.edges⟩ ∧
    toListTree ⟨sortEdges T.edges⟩ = toListTree T ∧
    treeRoot ⟨sortEdges T.edges⟩ = treeRoot T ∧
    renderTree ⟨sortEdges T.edges⟩ (treeRoot ⟨sortEdges T.edges⟩) = renderTree T (treeRoot T) := by
  have hperm : T.edges.Perm (sortEdges T.edges) := (sortEdges_perm T.edges).symm
  have hv' : validTreeB ⟨sortEdges T.edges⟩ = true := validTree_perm hv hperm
  have hroot' : treeRoot ⟨sortEdges T.edges⟩ = treeRoot T := by
    unfold treeRoot
    rw [show (⟨sortEdges T.edges⟩ : FrameTree).edges = sortEdges T.edges from rfl,
      rootOf_perm hv hperm]
  refine ⟨?_, ?_, hroot', ?_⟩
  · unfold fromListTree toListTree
    rw [map_toRec_toTransform]
    unfold constructTree
    rw [if_pos hv']
  · unfold toListTree
    rw [show (⟨sortEdges T.edges⟩ : FrameTree).edges = sortEdges T.edges from rfl,
      sortEdges_idem]
  · rw [hroot']
    unfold renderTree
    rw [show (⟨sortEdges T.edges⟩ : FrameTree).edges = sortEdges T.edges from rfl,
      sortEdges_idem]
    have hfuel : fuelOf (sortEdges T.edges) = fuelOf T.edges := by
      unfold fuelOf
      rw [(sortEdges_perm T.edges).length_eq]
    rw [hfuel]

/-! Transfer of chains from a component tree to the serialized forest edge list. -/

theorem disjoint_not_known {T1 T2 : FrameTree} (hd : disjointB T1 T2 = true) {f : String}
    (h1 : knownB T1.edges f = true) : knownB T2.edges f = false := by
  unfold disjointB at hd
  rw [List.all_eq_true] at hd
  have := hd f (knownB_iff_frames.mp h1)
  simpa using this

theorem disjoint_symm {T1 T2 : FrameTree} (hd : disjointB T1 T2 = true) :
    disjointB T2 T1 = true := by
  unfold disjointB
  rw [List.all_eq_true]
  intro f hf
  cases hk : knownB T1.edges f
  · simp
  · have hcontra := disjoint_not_known hd hk
    exact absurd (knownB_iff_frames.mpr hf) (by simp [hcontra])

theorem pairwiseDisjointB_iff {ts : List FrameTree} :
    pairwiseDisjointB ts = true ↔ List.Pairwise (fun T1 T2 => disjointB T1 T2 = true) ts := by
  induction ts with
  | nil => simp [pairwiseDisjointB]
  | cons T rest ih =>
    simp [pairwiseDisjointB, List.all_eq_true, List.pairwise_cons, ih]

theorem findEdge_append3 {L M R : List Transform} {g : String}
    (hL : ∀ e ∈ L, e.child ≠ g) (hR : ∀ e ∈ R, e.child ≠ g) :
    findEdge (L ++ (M ++ R)) g = findEdge M g := by
  unfold findEdge
  rw [List.find?_append, List.find?_append]
  have hLnone : L.find? (fun e => e.child == g) = none :=
    List.find?_eq_none.mpr (fun e he => by simpa using hL e he)
  have hRnone : R.find? (fun e => e.child == g) = none :=
    List.find?_eq_none.mpr (fun e he => by simpa using hR e he)
  rw [hLnone, hRnone]
  cases M.find? (fun e => e.child == g) <;> rfl

theorem sorted_member_known {Ti : FrameTree} {e : Transform} (he : e ∈ sortEdges Ti.edges)
    {g : String} (hg : e.child = g ∨ e.parent = g) : knownB Ti.edges g = true :=
  knownB_iff.mpr ⟨e, (sortEdges_perm Ti.edges).subset he, hg⟩

theorem findEdge_flatten_of_known {Ts : List FrameTree}
    (hdis : List.Pairwise (fun T1 T2 => disjointB T1 T2 = true) Ts) {Ti : FrameTree}
    (hmem : Ti ∈ Ts) {g : String} (hg : knownB Ti.edges g = true) :
    findEdge ((Ts.map (fun T => sortEdges T.edges)).flatten) g =
      findEdge (sortEdges Ti.edges) g := by
  obtain ⟨pre, post, rfl⟩ := List.mem_iff_append.mp hmem
  rw [List.map_append, List.map_cons, List.flatten_append, List.flatten_cons]
  have hpre := (List.pairwise_append.mp hdis).2.2
  have hpost := (List.pairwise_cons.mp (List.pairwise_append.mp hdis).2.1).1
  refine findEdge_append3 ?_ ?_
  · intro e' he'
    obtain ⟨part, hpart, hin⟩ := List.mem_flatten.mp he'
    obtain ⟨Tj, hTj, rfl⟩ := List.mem_map.mp hpart
    intro heq
    have hdj : disjointB Tj Ti = true := hpre Tj hTj Ti (List.mem_cons_self Ti post)
    have hknown : knownB Tj.edges g = true :=
      sorted_member_known hin (Or.inl heq)
    have := disjoint_not_known hdj hknown
    rw [hg] at this
    exact Bool.noConfusion this
  · intro e' he'
    obtain ⟨part, hpart, hin⟩ := List.mem_flatten.mp he'
    obtain ⟨Tk, hTk, rfl⟩ := List.mem_map.mp hpart
    intro heq
    have hdk : disjointB Ti Tk = true := hpost Tk hTk
    have hknown : knownB Tk.edges g = true :=
      sorted_member_known hin (Or.inl heq)
    have := disjoint_not_known hdk hg
    rw [hknown] at this
    exact Bool.noConfusion this

theorem chain_mem_known {es0 : List Transform} {n : Nat} {f g : String}
    (hg : g ∈ chain es0 n f) (hf : knownB es0 f = true) : knownB es0 g = true := by
  rcases chain_mem_parent hg with rfl | ⟨e, he, hp⟩
  · exact hf
  · exact knownB_iff.mpr ⟨e, he, Or.inr hp⟩

theorem chain_flatten_of_known {Ts : List FrameTree}
    (hdis : List.Pairwise (fun T1 T2 => disjointB T1 T2 = true) Ts) {Ti : FrameTree}
    (hmem : Ti ∈ Ts) {f : String} (hf : knownB Ti.edges f = true) (n : Nat) :
    chain ((Ts.map (fun T => sortEdges T.edges)).flatten) n f =
      chain (sortEdges Ti.edges) n f := by
  refine chain_congr_on n f ?_
  intro g hgmem
  have hf' : knownB (sortEdges Ti.edges) f = true := by
    rw [knownB_perm (sortEdges_perm Ti.edges) f]
    exact hf
  have hgknown : knownB Ti.edges g = true := by
    rw [← knownB_perm (sortEdges_perm Ti.edges) g]
    exact chain_mem_known hgmem hf'
  exact (findEdge_flatten_of_known hdis hmem hgknown).symm

theorem componentRoot_of_member {Ts : List FrameTree}
    (hdis : List.Pairwise (fun T1 T2 => disjointB T1 T2 = true) Ts)
    (hval : ∀ T ∈ Ts, validTreeB T = true) {Ti : FrameTree} (hmem : Ti ∈ Ts)
    {e : Transform} (he : e ∈ sortEdges Ti.edges) :
    componentRoot ((Ts.map (fun T => sortEdges T.edges)).flatten) e = treeRoot Ti := by
  set es := (Ts.map (fun T => sortEdges T.edges)).flatten with hes
  have hvTi := hval Ti hmem
  have hvTi' : validTreeB ⟨sortEdges Ti.edges⟩ = true :=
    validTree_perm hvTi (sortEdges_perm Ti.edges).symm
  obtain ⟨r, hroot', _, _, _⟩ := validTree_spec hvTi'
  have hkc : knownB Ti.edges e.child = true := sorted_member_known he (Or.inl rfl)
  have hchainTi : (chain (sortEdges Ti.edges) (fuelOf (sortEdges Ti.edges)) e.child).getLast?
      = some r :=
    valid_known_chain hvTi' hroot' (by
      show knownB (sortEdges Ti.edges) e.child = true
      rw [knownB_perm (sortEdges_perm Ti.edges) e.child]
      exact hkc)
  have hle : fuelOf (sortEdges Ti.edges) ≤ fuelOf es := by
    obtain ⟨pre, post, rfl⟩ := List.mem_iff_append.mp hmem
    unfold fuelOf
    rw [hes, List.map_append, List.map_cons, List.flatten_append, List.flatten_cons]
    simp only [List.length_append]
    omega
  have hstable := chain_stable (root_no_edge hroot') (fuelOf (sortEdges Ti.edges)) e.child
    hchainTi (fuelOf es) hle
  unfold componentRoot
  rw [chain_flatten_of_known hdis hmem hkc (fuelOf es), hstable, hchainTi]
  have hrootTi : treeRoot Ti = r := by
    unfold treeRoot
    rw [rootOf_perm hvTi (sortEdges_perm Ti.edges).symm] at hroot'
    rw [hroot']
    rfl
  rw [hrootTi]
  rfl

/-! Deduplication and grouping of the component partition. -/

theorem dedupFirst_cons_mem {seen : List String} {a : String} {t : List String}
    (h : a ∈ seen) : dedupFirst seen (a :: t) = dedupFirst seen t := by
  simp [dedupFirst, h]

theorem dedupFirst_cons_not_mem {seen : List String} {a : String} {t : List String}
    (h : a ∉ seen) : dedupFirst seen (a :: t) = a :: dedupFirst (a :: seen) t := by
  simp [dedupFirst, h]

theorem dedupFirst_mem_seen {r : String} :
    ∀ (xs : List String) (rest seen : List String), (∀ x ∈ xs, x = r) → r ∈ seen →
      dedupFirst seen (xs ++ rest) = dedupFirst seen rest := by
  intro xs
  induction xs with
  | nil => intro rest seen _ _; rfl
  | cons a xs' ih =>
    intro rest seen hval hr
    have ha : a = r := hval a (List.mem_cons_self a xs')
    subst ha
    show dedupFirst seen (a :: (xs' ++ rest)) = dedupFirst seen rest
    rw [dedupFirst_cons_mem hr]
    exact ih rest seen (fun x hx => hval x (List.mem_cons_of_mem a hx)) hr

theorem dedupFirst_const_block {r : String} {xs rest seen : List String}
    (hxs : ∀ x ∈ xs, x = r) (hne : xs ≠ []) (hr : r ∉ seen) :
    dedupFirst seen (xs ++ rest) = r :: dedupFirst (r :: seen) rest := by
  cases xs with
  | nil => exact absurd rfl hne
  | cons a xs' =>
    have ha : a = r := hxs a (List.mem_cons_self a xs')
    subst ha
    show dedupFirst seen (a :: (xs' ++ rest)) = a :: dedupFirst (a :: seen) rest
    rw [dedupFirst_cons_not_mem hr]
    rw [dedupFirst_mem_seen xs' rest (a :: seen)
      (fun x hx => hxs x (List.mem_cons_of_mem a hx)) (List.mem_cons_self a seen)]

theorem dedup_blocks {g : Transform → String} :
    ∀ (bs : List FrameTree) (seen : List String),
      (∀ Ti ∈ bs, sortEdges Ti.edges ≠ []) →
      (∀ Ti ∈ bs, ∀ e ∈ sortEdges Ti.edges, g e = treeRoot Ti) →
      ((bs.map treeRoot).Nodup) → (∀ Ti ∈ bs, treeRoot Ti ∉ seen) →
      dedupFirst seen (((bs.map (fun T => sortEdges T.edges)).flatten).map g) =
        bs.map treeRoot := by
  intro bs
  induction bs with
  | nil => intro seen _ _ _ _; rfl
  | cons Ti bs' ih =>
    intro seen hne hval hnd hseen
    rw [List.map_cons, List.flatten_cons, List.map_append]
    rw [dedupFirst_const_block
      (fun x hx => by
        obtain ⟨e, he, rfl⟩ := List.mem_map.mp hx
        exact hval Ti (List.mem_cons_self Ti bs') e he)
      (fun h => hne Ti (List.mem_cons_self Ti bs') (List.map_eq_nil_iff.mp h))
      (hseen Ti (List.mem_cons_self Ti bs'))]
    rw [List.map_cons]
    congr 1
    refine ih (treeRoot Ti :: seen) (fun Tj hj => hne Tj (List.mem_cons_of_mem Ti hj))
      (fun Tj hj => hval Tj (List.mem_cons_of_mem Ti hj))
      ((List.nodup_cons.mp (by rw [← List.map_cons]; exact hnd)).2) ?_
    intro Tj hj
    rw [List.mem_cons]
    rintro (heq | hin)
    · have := (List.nodup_cons.mp (by rw [← List.map_cons]; exact hnd)).1
      exact this (heq ▸ List.mem_map_of_mem treeRoot hj)
    · exact hseen Tj (List.mem_cons_of_mem Ti hj) hin

theorem filter_blocks {g : Transform → String} :
    ∀ (bs : List FrameTree),
      (∀ Tj ∈ bs, ∀ e ∈ sortEdges Tj.edges, g e = treeRoot Tj) →
      ((bs.map treeRoot).Nodup) → ∀ Ti ∈ bs,
      ((bs.map (fun T => sortEdges T.edges)).flatten).filter
          (fun e => g e == treeRoot Ti) = sortEdges Ti.edges := by
  intro bs
  induction bs with
  | nil => intro _ _ Ti hTi; exact absurd hTi (List.not_mem_nil Ti)
  | cons Tj bs' ih =>
    intro hval hnd Ti hTi
    rw [List.map_cons, List.flatten_cons, List.filter_append]
    have hndc := List.nodup_cons.mp (by rw [← List.map_cons]; exact hnd)
    rcases List.mem_cons.mp hTi with rfl | hTi'
    · rw [List.filter_eq_self.mpr (fun e he => by
        rw [hval Ti (List.mem_cons_self Ti bs') e he]
        exact beq_self_eq_true _)]
      rw [List.filter_eq_nil_iff.mpr ?_, List.append_nil]
      intro e he
      obtain ⟨part, hpart, hin⟩ := List.mem_flatten.mp he
      obtain ⟨Tk, hTk, rfl⟩ := List.mem_map.mp hpart
      rw [hval Tk (List.mem_cons_of_mem Ti hTk) e hin]
      simp only [beq_iff_eq]
      intro heq
      exact hndc.1 (heq ▸ List.mem_map_of_mem treeRoot hTk)
    · rw [List.filter_eq_nil_iff.mpr (fun e he => by
        rw [hval Tj (List.mem_cons_self Tj bs') e he]
        simp only [beq_iff_eq]
        intro heq
        exact hndc.1 (heq ▸ List.mem_map_of_mem treeRoot hTi')), List.nil_append]
      exact ih (fun Tk hk => hval Tk (List.mem_cons_of_mem Tj hk)) hndc.2 Ti hTi'

theorem disjointB_sorted {T1 T2 : FrameTree} (hd : disjointB T1 T2 = true) :
    disjointB ⟨sortEdges T1.edges⟩ ⟨sortEdges T2.edges⟩ = true := by
  unfold disjointB at hd ⊢
  rw [List.all_eq_true] at hd ⊢
  intro f hf
  have hf1 : f ∈ framesOf T1.edges := by
    rw [framesOf_mem] at hf ⊢
    obtain ⟨e, he, h⟩ := hf
    exact ⟨e, (sortEdges_perm _).subset he, h⟩
  have := hd f hf1
  rwa [show knownB (sortEdges T2.edges) f = knownB T2.edges f from
    knownB_perm (sortEdges_perm T2.edges) f]

theorem treeRoot_known {T : FrameTree} (hv : validTreeB T = true) :
    knownB T.edges (treeRoot T) = true := by
  obtain ⟨r, hroot, _, _, _⟩ := validTree_spec hv
  unfold treeRoot
  rw [hroot]
  exact root_known hroot

theorem disjoint_roots_ne {T1 T2 : FrameTree} (h1 : validTreeB T1 = true)
    (h2 : validTreeB T2 = true) (hd : disjointB T1 T2 = true) : treeRoot T1 ≠ treeRoot T2 := by
  intro heq
  have hk1 := treeRoot_known h1
  have hk2 := treeRoot_known h2
  have := disjoint_not_known hd hk1
  rw [heq, hk2] at this
  exact Bool.noConfusion this

/-! Reconstruction of the component partition from the serialized forest. -/

theorem constructForest_of_valid {F : FrameForest} (hvF : validForestB F = true) :
    constructForest (((sortTrees F.trees).map (fun T => sortEdges T.edges)).flatten) =
      .ok ⟨(sortTrees F.trees).map (fun Ti => (⟨sortEdges Ti.edges⟩ : FrameTree))⟩ := by
  obtain ⟨hvall, hpd⟩ := validForestB_spec hvF
  set Ts := sortTrees F.trees with hTs
  have hvalTs : ∀ T ∈ Ts, validTreeB T = true :=
    fun T hT => hvall T ((sortTrees_perm F.trees).subset hT)
  have hdisTs : List.Pairwise (fun T1 T2 => disjointB T1 T2 = true) Ts :=
    (List.Perm.pairwise_iff (fun hd => disjoint_symm hd) (sortTrees_perm F.trees)).mpr
      (pairwiseDisjointB_iff.mp hpd)
  have hne : ∀ Ti ∈ Ts, sortEdges Ti.edges ≠ [] := by
    intro Ti hTi h
    obtain ⟨_, _, hnil, _, _⟩ := validTree_spec (hvalTs Ti hTi)
    have hlen := (sortEdges_perm Ti.edges).length_eq
    rw [h] at hlen
    exact hnil (List.eq_nil_of_length_eq_zero hlen.symm)
  have hg : ∀ Ti ∈ Ts, ∀ e ∈ sortEdges Ti.edges,
      componentRoot ((Ts.map (fun T => sortEdges T.edges)).flatten) e = treeRoot Ti :=
    fun Ti hTi e he => componentRoot_of_member hdisTs hvalTs hTi he
  have hndroots : (Ts.map treeRoot).Nodup := by
    apply List.pairwise_map.mpr
    exact List.Pairwise.imp_of_mem
      (fun ha hb hd => disjoint_roots_ne (hvalTs _ ha) (hvalTs _ hb) hd) hdisTs
  have hvalid' : ((Ts.map (fun Ti => (⟨sortEdges Ti.edges⟩ : FrameTree))).all validTreeB)
      = true := by
    rw [List.all_eq_true]
    intro T' hT'
    obtain ⟨Ti, hTi, rfl⟩ := List.mem_map.mp hT'
    exact validTree_perm (hvalTs Ti hTi) (sortEdges_perm Ti.edges).symm
  have hdis' : pairwiseDisjointB (Ts.map (fun Ti => (⟨sortEdges Ti.edges⟩ : FrameTree)))
      = true := by
    rw [pairwiseDisjointB_iff]
    apply List.pairwise_map.mpr
    exact hdisTs.imp (fun hd => disjointB_sorted hd)
  simp only [constructForest]
  rw [dedup_blocks Ts [] hne hg hndroots (fun _ _ => List.not_mem_nil _), List.map_map]
  have hts : Ts.map ((fun r => (⟨((Ts.map (fun T => sortEdges T.edges)).flatten).filter
        (fun e => componentRoot ((Ts.map (fun T => sortEdges T.edges)).flatten) e == r)⟩ :
      FrameTree)) ∘ treeRoot) = Ts.map (fun Ti => (⟨sortEdges Ti.edges⟩ : FrameTree)) := by
    apply List.map_eq_map_iff.mpr
    intro Ti hTi
    show (⟨((Ts.map (fun T => sortEdges T.edges)).flatten).filter
        (fun e => componentRoot ((Ts.map (fun T => sortEdges T.edges)).flatten) e
          == treeRoot Ti)⟩ : FrameTree) = ⟨sortEdges Ti.edges⟩
    congr 1
    exact filter_blocks Ts hg hndroots Ti hTi
  rw [hts, if_pos (by rw [Bool.and_eq_true]; exact ⟨hvalid', hdis'⟩)]

/-- Round trip of a valid forest. -/
theorem roundTripForest {F : FrameForest} (hvF : validForestB F = true) :
    fromListForest (toListForest F) =
      .ok ⟨(sortTrees F.trees).map (fun Ti => (⟨sortEdges Ti.edges⟩ : FrameTree))⟩ ∧
    toListForest ⟨(sortTrees F.trees).map (fun Ti => (⟨sortEdges Ti.edges⟩ : FrameTree))⟩ =
      toListForest F ∧
    renderForest ⟨(sortTrees F.trees).map (fun Ti => (⟨sortEdges Ti.edges⟩ : FrameTree))⟩ =
      renderForest F := by
  obtain ⟨hvall, _⟩ := validForestB_spec hvF
  set Ts := sortTrees F.trees with hTs
  have hvalTs : ∀ T ∈ Ts, validTreeB T = true :=
    fun T hT => hvall T ((sortTrees_perm F.trees).subset hT)
  have hroots' : ∀ Ti ∈ Ts, treeRoot (⟨sortEdges Ti.edges⟩ : FrameTree) = treeRoot Ti := by
    intro Ti hTi
    unfold treeRoot
    rw [show (⟨sortEdges Ti.edges⟩ : FrameTree).edges = sortEdges Ti.edges from rfl,
      rootOf_perm (hvalTs Ti hTi) (sortEdges_perm Ti.edges).symm]
  have hsorted' : List.Sorted treeLE
      (Ts.map (fun Ti => (⟨sortEdges Ti.edges⟩ : FrameTree))) := by
    apply List.pairwise_map.mpr
    refine List.Pairwise.imp_of_mem ?_ (sortTrees_sorted F.trees)
    intro a b ha hb hab
    show strLe (treeRoot (⟨sortEdges a.edges⟩ : FrameTree))
      (treeRoot (⟨sortEdges b.edges⟩ : FrameTree)) = true
    rw [hroots' a ha, hroots' b hb]
    exact hab
  have hlists : (Ts.map (fun Ti => (⟨sortEdges Ti.edges⟩ : FrameTree))).map toListTree =
      Ts.map toListTree := by
    rw [List.map_map]
    apply List.map_eq_map_iff.mpr
    intro Ti _
    show toListTree ⟨sortEdges Ti.edges⟩ = toListTree Ti
    unfold toListTree
    rw [show (⟨sortEdges Ti.edges⟩ : FrameTree).edges = sortEdges Ti.edges from rfl,
      sortEdges_idem]
  refine ⟨?_, ?_, ?_⟩
  · unfold fromListForest toListForest
    have hmap : ((Ts.map toListTree).flatten).map EdgeRec.toTransform =
        (Ts.map (fun T => sortEdges T.edges)).flatten := by
      rw [List.map_flatten, List.map_map]
      congr 1
      apply List.map_eq_map_iff.mpr
      intro Ti _
      show ((sortEdges Ti.edges).map Transform.toRec).map EdgeRec.toTransform =
        sortEdges Ti.edges
      exact map_toRec_toTransform _
    rw [hmap]
    exact constructForest_of_valid hvF
  · unfold toListForest
    rw [show (⟨Ts.map (fun Ti => (⟨sortEdges Ti.edges⟩ : FrameTree))⟩ : FrameForest).trees =
      Ts.map (fun Ti => (⟨sortEdges Ti.edges⟩ : FrameTree)) from rfl]
    rw [sortTrees_of_sorted hsorted', hlists]
  · unfold renderForest
    rw [show (⟨Ts.map (fun Ti => (⟨sortEdges Ti.edges⟩ : FrameTree))⟩ : FrameForest).trees =
      Ts.map (fun Ti => (⟨sortEdges Ti.edges⟩ : FrameTree)) from rfl]
    rw [sortTrees_of_sorted hsorted', List.map_map]
    congr 1
    apply List.map_eq_map_iff.mpr
    intro Ti hTi
    show renderTree (⟨sortEdges Ti.edges⟩ : FrameTree)
        (treeRoot (⟨sortEdges Ti.edges⟩ : FrameTree)) = renderTree Ti (treeRoot Ti)
    exact (roundTripTree (hvalTs Ti hTi)).2.2.2

/-- C1: for every valid tree `T` and valid forest `F`, deserializing the
serialized edge-record sequence succeeds and re-serializing the reconstruction
yields the original sequence, and the rendered text of the reconstruction
equals the original rendered text (tree rendered from its root, forest
rendered componentwise). -/
theorem claim_serialization_roundtrip (T : FrameTree) (F : FrameForest)
    (hvT : validTreeB T = true) (hvF : validForestB F = true) :
    (∃ T', fromListTree (toListTree T) = .ok T' ∧ toListTree T' = toListTree T ∧
      renderTree T' (treeRoot T') = renderTree T (treeRoot T)) ∧
    (∃ F', fromListForest (toListForest F) = .ok F' ∧ toListForest F' = toListForest F ∧
      renderForest F' = renderForest F) := by
  constructor
  · obtain ⟨h1, h2, _, h4⟩ := roundTripTree hvT
    exact ⟨⟨sortEdges T.edges⟩, h1, h2, h4⟩
  · obtain ⟨h1, h2, h3⟩ := roundTripForest hvF
    exact ⟨_, h1, h2, h3⟩

unseal Rat.add Rat.mul Rat.inv Rat.sub in
theorem claim_serialization_roundtrip_witness :
    validTreeB sampleTree = true ∧ validForestB sampleForest = true ∧
    ((∃ T', fromListTree (toListTree sampleTree) = .ok T' ∧
        toListTree T' = toListTree sampleTree ∧
        renderTree T' (treeRoot T') = renderTree sampleTree (treeRoot sampleTree)) ∧
      (∃ F', fromListForest (toListForest sampleForest) = .ok F' ∧
        toListForest F' = toListForest sampleForest ∧
        renderForest F' = renderForest sampleForest)) := by
  refine ⟨by decide, by decide, ?_⟩
  exact claim_serialization_roundtrip sampleTree sampleForest (by decide) (by decide)

end SpatialEffects
